import Mathlib

/-!
Verification of the chess engine in this repository against its specification.

The repository contains two implementations of the same game:
  * `chess_with_elysia.cpp` (namespace `Elysia` below): the board is a single
    148-byte string (a 12x12 padded grid plus two castle-flag bytes and two
    en-passant bytes); `undo` restores a full snapshot of that string.
  * the unnamed C++14 file `src/unnamed/part_000` (namespace `P000` below):
    the board is a 12x12 array plus separate castle flags and an en-passant
    position; `undo` replays a delta record.

Both are embedded shallowly: bytes/enum values become `Int`, the C++ classes
become structures, and every operation is a computable Lean function mirroring
the corresponding C++ function.  Scores (C++ `float`) are modelled as `ℚ`;
the search performs no arithmetic on scores other than comparisons and
min/max, so this is exact.  The externally-loaded weight tables are modelled
by an abstract evaluation function parameter.
-/

set_option maxRecDepth 8000

/-- `std::max` on scores: `(a < b) ? b : a`. -/
def fmax (a b : ℚ) : ℚ := if a < b then b else a

/-- `std::min` on scores: `(b < a) ? b : a`. -/
def fmin (a b : ℚ) : ℚ := if b < a then b else a

namespace Elysia

inductive Side where
  | upper
  | down
  | extra
deriving DecidableEq

inductive PieceType where
  | pawn
  | rook
  | knight
  | bishop
  | queen
  | king
  | empty
  | out
deriving DecidableEq

/-- Pieces are `char` values in the C++ source; we use their byte codes. -/
abbrev Piece := Int

def P_UP : Piece := 80
def P_UR : Piece := 82
def P_UN : Piece := 78
def P_UB : Piece := 66
def P_UQ : Piece := 81
def P_UK : Piece := 75
def P_DP : Piece := 112
def P_DR : Piece := 114
def P_DN : Piece := 110
def P_DB : Piece := 98
def P_DQ : Piece := 113
def P_DK : Piece := 107
def P_EE : Piece := 46
def P_EO : Piece := 35

/-- Reading the board string out of range is undefined behaviour in the C++;
we return a junk byte that is classified like any unknown character
(`piece_type` = out, `piece_side` = extra, the `default:` switch branches). -/
def junkPiece : Piece := 63

def piece_type (p : Piece) : PieceType :=
  if p = P_UP ∨ p = P_DP then .pawn
  else if p = P_UR ∨ p = P_DR then .rook
  else if p = P_UN ∨ p = P_DN then .knight
  else if p = P_UB ∨ p = P_DB then .bishop
  else if p = P_UQ ∨ p = P_DQ then .queen
  else if p = P_UK ∨ p = P_DK then .king
  else if p = P_EE then .empty
  else .out

def piece_side (p : Piece) : Side :=
  if p = P_UP ∨ p = P_UR ∨ p = P_UN ∨ p = P_UB ∨ p = P_UQ ∨ p = P_UK then .upper
  else if p = P_DP ∨ p = P_DR ∨ p = P_DN ∨ p = P_DB ∨ p = P_DQ ∨ p = P_DK then .down
  else .extra

structure Pos where
  row : Int
  col : Int
deriving DecidableEq

inductive MoveType where
  | invalid
  | normal
  | en_passant
  | long_castling
  | short_castling
  | pawn_move_and_promote
  | pawn_2_steps
deriving DecidableEq

structure Move where
  fromPos : Pos
  toPos : Pos
  moveType : MoveType
  promoteP : Piece
deriving DecidableEq

/-- The C++ default constructor `Move()`. -/
def defaultMove : Move := ⟨⟨0, 0⟩, ⟨0, 0⟩, .invalid, P_EO⟩

def width : Int := 12
def line_begin : Int := 2
def line_end : Int := 9
def upper_pawn_begin_row : Int := 3
def upper_pawn_promote_row : Int := 9
def down_pawn_begin_row : Int := 8
def down_pawn_promote_row : Int := 2

def upper_king_start_pos : Nat := 30
def down_king_start_pos : Nat := 114
def upper_castle_flag_pos : Nat := 144
def down_castle_flag_pos : Nat := 145
def en_passant_row_pos : Nat := 146
def en_passant_col_pos : Nat := 147

/-- `Board::data` (the 148-byte string) together with the undo history
(newest snapshot first, matching `history.back()`). -/
structure Board where
  data : List Piece
  history : List (List Piece)
deriving DecidableEq

def Board.get (b : Board) (r c : Int) : Piece :=
  let idx := r * width + c
  if 0 ≤ idx ∧ idx < 148 then b.data.getD idx.toNat junkPiece else junkPiece

def Board.getP (b : Board) (pos : Pos) : Piece :=
  b.get pos.row pos.col

def Board.set (b : Board) (r c : Int) (p : Piece) : Board :=
  let idx := r * width + c
  if 0 ≤ idx ∧ idx < 148 then { b with data := b.data.set idx.toNat p } else b

def Board.setP (b : Board) (pos : Pos) (p : Piece) : Board :=
  b.set pos.row pos.col p

def Board.get_upper_castle_flag (b : Board) : Bool :=
  b.data.getD upper_castle_flag_pos junkPiece != 48

def Board.get_down_castle_flag (b : Board) : Bool :=
  b.data.getD down_castle_flag_pos junkPiece != 48

def Board.set_upper_castle_flag (b : Board) (flag : Bool) : Board :=
  { b with data := b.data.set upper_castle_flag_pos (if flag then 49 else 48) }

def Board.set_down_castle_flag (b : Board) (flag : Bool) : Board :=
  { b with data := b.data.set down_castle_flag_pos (if flag then 49 else 48) }

/-- `set_en_passant_pos(r, c)` stores `r + '0'` and `c + '0'` raw. -/
def Board.set_en_passant_pos (b : Board) (r c : Int) : Board :=
  { b with data := (b.data.set en_passant_row_pos (r + 48)).set en_passant_col_pos (c + 48) }

def Board.reset_en_passant_pos (b : Board) : Board :=
  b.set_en_passant_pos 0 0

def Board.has_chance_to_do_en_passant (b : Board) : Bool :=
  b.data.getD en_passant_row_pos junkPiece != 48 &&
    b.data.getD en_passant_col_pos junkPiece != 48

/-- `en_passant_pos()` adds `line_begin` to the stored bytes (while
`set_en_passant_pos` stored absolute coordinates). -/
def Board.en_passant_pos (b : Board) : Pos :=
  ⟨line_begin + (b.data.getD en_passant_row_pos junkPiece - 48),
   line_begin + (b.data.getD en_passant_col_pos junkPiece - 48)⟩

def resetString : String :=
  "############" ++ "############" ++ "##RNBQKBNR##" ++ "##PPPPPPPP##" ++
  "##........##" ++ "##........##" ++ "##........##" ++ "##........##" ++
  "##pppppppp##" ++ "##rnbqkbnr##" ++ "############" ++ "############" ++ "1100"

/-- The board produced by `Board::reset()` (also the initial board). -/
def resetBoard : Board :=
  ⟨resetString.data.map (fun ch => (ch.toNat : Int)), []⟩

def Board.move (b : Board) (mv : Move) : Board :=
  if mv.moveType = MoveType.invalid then b
  else
    let b0 : Board := { b with history := b.data :: b.history }
    let fromP := b0.getP mv.fromPos
    let b1 := b0.reset_en_passant_pos
    if mv.moveType = MoveType.pawn_move_and_promote then
      (b1.setP mv.toPos mv.promoteP).setP mv.fromPos P_EE
    else
      let b2 := (b1.setP mv.toPos fromP).setP mv.fromPos P_EE
      let b3 :=
        if fromP = P_UK then b2.set_upper_castle_flag false
        else if fromP = P_DK then b2.set_down_castle_flag false
        else b2
      if mv.moveType = MoveType.long_castling then
        (b3.set mv.fromPos.row (mv.fromPos.col - 1)
            (b3.get mv.fromPos.row (mv.fromPos.col - 4))).set
          mv.fromPos.row (mv.fromPos.col - 4) P_EE
      else if mv.moveType = MoveType.short_castling then
        (b3.set mv.fromPos.row (mv.fromPos.col + 1)
            (b3.get mv.fromPos.row (mv.fromPos.col + 3))).set
          mv.fromPos.row (mv.fromPos.col + 3) P_EE
      else if mv.moveType = MoveType.en_passant then
        b3.set mv.fromPos.row mv.toPos.col P_EE
      else if mv.moveType = MoveType.pawn_2_steps then
        let s := piece_side fromP
        let reversePawn := if s = Side.upper then P_DP else P_UP
        if b3.get mv.fromPos.row (mv.fromPos.col - 1) = reversePawn then
          b3.set_en_passant_pos mv.fromPos.row (mv.fromPos.col - 1)
        else if b3.get mv.fromPos.row (mv.fromPos.col + 1) = reversePawn then
          b3.set_en_passant_pos mv.fromPos.row (mv.fromPos.col + 1)
        else b3
      else b3

def Board.undo (b : Board) : Board :=
  match b.history with
  | [] => b
  | d :: rest => ⟨d, rest⟩

/-- `can_upper_short_castle`: flag set and the three bytes after the fixed
king start position read `..R`. -/
def Board.can_upper_short_castle (b : Board) : Bool :=
  b.get_upper_castle_flag &&
    (b.data.getD (upper_king_start_pos + 1) junkPiece == P_EE &&
     b.data.getD (upper_king_start_pos + 2) junkPiece == P_EE &&
     b.data.getD (upper_king_start_pos + 3) junkPiece == P_UR)

/-- `can_upper_long_castle`: flag set and the four bytes before the fixed
king start position read `R...`. -/
def Board.can_upper_long_castle (b : Board) : Bool :=
  b.get_upper_castle_flag &&
    (b.data.getD (upper_king_start_pos - 4) junkPiece == P_UR &&
     b.data.getD (upper_king_start_pos - 3) junkPiece == P_EE &&
     b.data.getD (upper_king_start_pos - 2) junkPiece == P_EE &&
     b.data.getD (upper_king_start_pos - 1) junkPiece == P_EE)

def Board.can_down_short_castle (b : Board) : Bool :=
  b.get_down_castle_flag &&
    (b.data.getD (down_king_start_pos + 1) junkPiece == P_EE &&
     b.data.getD (down_king_start_pos + 2) junkPiece == P_EE &&
     b.data.getD (down_king_start_pos + 3) junkPiece == P_DR)

def Board.can_down_long_castle (b : Board) : Bool :=
  b.get_down_castle_flag &&
    (b.data.getD (down_king_start_pos - 4) junkPiece == P_DR &&
     b.data.getD (down_king_start_pos - 3) junkPiece == P_EE &&
     b.data.getD (down_king_start_pos - 2) junkPiece == P_EE &&
     b.data.getD (down_king_start_pos - 1) junkPiece == P_EE)

/-- `MovesGen::try_add_possible_move`: the appended moves together with the
bool return value (continue the ray?). -/
def try_add_possible_move (b : Board) (fromPos toPos : Pos) : List Move × Bool :=
  let fromP := b.getP fromPos
  let toP := b.getP toPos
  if toP = P_EO then ([], false)
  else if toP = P_EE then ([⟨fromPos, toPos, .normal, P_EO⟩], true)
  else if piece_side fromP ≠ piece_side toP then ([⟨fromPos, toPos, .normal, P_EO⟩], false)
  else ([], false)

/-- Each C++ ray loop runs until `try_add_possible_move` returns false; the
off-board border guarantees this happens within the 12-wide grid, so fuel 12
is sufficient (and exact) for the boards our theorems quantify over. -/
def ray_fuel : Nat := 12

def gen_ray (b : Board) (fromPos : Pos) (dr dc : Int) : Nat → Pos → List Move
  | 0, _ => []
  | fuel + 1, p =>
    let step := try_add_possible_move b fromPos p
    if step.2 then step.1 ++ gen_ray b fromPos dr dc fuel ⟨p.row + dr, p.col + dc⟩
    else step.1

def gen_crossing (b : Board) (f : Pos) : List Move :=
  gen_ray b f (-1) 0 ray_fuel ⟨f.row - 1, f.col⟩ ++
  gen_ray b f 1 0 ray_fuel ⟨f.row + 1, f.col⟩ ++
  gen_ray b f 0 (-1) ray_fuel ⟨f.row, f.col - 1⟩ ++
  gen_ray b f 0 1 ray_fuel ⟨f.row, f.col + 1⟩

def gen_diagonal (b : Board) (f : Pos) : List Move :=
  gen_ray b f (-1) (-1) ray_fuel ⟨f.row - 1, f.col - 1⟩ ++
  gen_ray b f (-1) 1 ray_fuel ⟨f.row - 1, f.col + 1⟩ ++
  gen_ray b f 1 (-1) ray_fuel ⟨f.row + 1, f.col - 1⟩ ++
  gen_ray b f 1 1 ray_fuel ⟨f.row + 1, f.col + 1⟩

def pawn_add_and_check_promote (s : Side) (f t : Pos) (canPromote : Bool) : List Move :=
  if canPromote then
    [⟨f, t, .pawn_move_and_promote, if s = Side.upper then P_UR else P_DR⟩,
     ⟨f, t, .pawn_move_and_promote, if s = Side.upper then P_UN else P_DN⟩,
     ⟨f, t, .pawn_move_and_promote, if s = Side.upper then P_UB else P_DB⟩,
     ⟨f, t, .pawn_move_and_promote, if s = Side.upper then P_UQ else P_DQ⟩]
  else
    [⟨f, t, .normal, P_EO⟩]

def pawn_steps_upper (b : Board) (f : Pos) : List Move :=
  (if b.has_chance_to_do_en_passant then
    let ep := b.en_passant_pos
    if f.row = ep.row ∧ (f.col + 1 = ep.col ∨ f.col - 1 = ep.col) then
      [⟨f, ⟨f.row + 1, ep.col⟩, .en_passant, P_EO⟩]
    else []
  else []) ++
  (if b.get (f.row + 1) f.col = P_EE then
    (if f.row = upper_pawn_begin_row ∧ b.get (f.row + 2) f.col = P_EE then
      [⟨f, ⟨f.row + 2, f.col⟩, .pawn_2_steps, P_EO⟩]
    else []) ++
    pawn_add_and_check_promote Side.upper f ⟨f.row + 1, f.col⟩
      (decide (f.row + 1 = upper_pawn_promote_row))
  else []) ++
  ([f.col + 1, f.col - 1].flatMap fun c =>
    let p := b.get (f.row + 1) c
    let s := piece_side p
    if s ≠ Side.extra ∧ s ≠ piece_side (b.getP f) then
      pawn_add_and_check_promote Side.upper f ⟨f.row + 1, c⟩
        (decide (f.row + 1 = upper_pawn_promote_row))
    else [])

def pawn_steps_down (b : Board) (f : Pos) : List Move :=
  (if b.has_chance_to_do_en_passant then
    let ep := b.en_passant_pos
    if f.row = ep.row ∧ (f.col + 1 = ep.col ∨ f.col - 1 = ep.col) then
      [⟨f, ⟨f.row - 1, ep.col⟩, .en_passant, P_EO⟩]
    else []
  else []) ++
  (if b.get (f.row - 1) f.col = P_EE then
    (if f.row = down_pawn_begin_row ∧ b.get (f.row - 2) f.col = P_EE then
      [⟨f, ⟨f.row - 2, f.col⟩, .pawn_2_steps, P_EO⟩]
    else []) ++
    pawn_add_and_check_promote Side.down f ⟨f.row - 1, f.col⟩
      (decide (f.row - 1 = down_pawn_promote_row))
  else []) ++
  ([f.col + 1, f.col - 1].flatMap fun c =>
    let p := b.get (f.row - 1) c
    let s := piece_side p
    if s ≠ Side.extra ∧ s ≠ piece_side (b.getP f) then
      pawn_add_and_check_promote Side.down f ⟨f.row - 1, c⟩
        (decide (f.row - 1 = down_pawn_promote_row))
    else [])

def pawn_steps (b : Board) (f : Pos) : List Move :=
  if b.getP f = P_UP then pawn_steps_upper b f else pawn_steps_down b f

def rook_steps (b : Board) (f : Pos) : List Move :=
  gen_crossing b f

def knight_steps (b : Board) (f : Pos) : List Move :=
  (try_add_possible_move b f ⟨f.row + 2, f.col - 1⟩).1 ++
  (try_add_possible_move b f ⟨f.row + 2, f.col + 1⟩).1 ++
  (try_add_possible_move b f ⟨f.row + 1, f.col - 2⟩).1 ++
  (try_add_possible_move b f ⟨f.row + 1, f.col + 2⟩).1 ++
  (try_add_possible_move b f ⟨f.row - 1, f.col - 2⟩).1 ++
  (try_add_possible_move b f ⟨f.row - 1, f.col + 2⟩).1 ++
  (try_add_possible_move b f ⟨f.row - 2, f.col - 1⟩).1 ++
  (try_add_possible_move b f ⟨f.row - 2, f.col + 1⟩).1

def bishop_steps (b : Board) (f : Pos) : List Move :=
  gen_diagonal b f

def queen_steps (b : Board) (f : Pos) : List Move :=
  gen_crossing b f ++ gen_diagonal b f

def king_steps (b : Board) (f : Pos) : List Move :=
  (try_add_possible_move b f ⟨f.row - 1, f.col - 1⟩).1 ++
  (try_add_possible_move b f ⟨f.row - 1, f.col⟩).1 ++
  (try_add_possible_move b f ⟨f.row - 1, f.col + 1⟩).1 ++
  (try_add_possible_move b f ⟨f.row, f.col - 1⟩).1 ++
  (try_add_possible_move b f ⟨f.row, f.col + 1⟩).1 ++
  (try_add_possible_move b f ⟨f.row + 1, f.col - 1⟩).1 ++
  (try_add_possible_move b f ⟨f.row + 1, f.col⟩).1 ++
  (try_add_possible_move b f ⟨f.row + 1, f.col + 1⟩).1 ++
  (let s := piece_side (b.getP f)
   if s = Side.upper then
     (if b.can_upper_short_castle then [⟨f, ⟨f.row, f.col + 2⟩, .short_castling, P_EO⟩] else []) ++
     (if b.can_upper_long_castle then [⟨f, ⟨f.row, f.col - 2⟩, .long_castling, P_EO⟩] else [])
   else
     (if b.can_down_short_castle then [⟨f, ⟨f.row, f.col + 2⟩, .short_castling, P_EO⟩] else []) ++
     (if b.can_down_long_castle then [⟨f, ⟨f.row, f.col - 2⟩, .long_castling, P_EO⟩] else []))

def piece_steps (b : Board) (p : Piece) (pos : Pos) : List Move :=
  match piece_type p with
  | .pawn => pawn_steps b pos
  | .rook => rook_steps b pos
  | .knight => knight_steps b pos
  | .bishop => bishop_steps b pos
  | .queen => queen_steps b pos
  | .king => king_steps b pos
  | _ => []

/-- The row-major scan order of `gen_moves_for_one_side`. -/
def interior_coords : List (Int × Int) :=
  (List.range 8).flatMap fun r => (List.range 8).map fun c => ((r : Int) + 2, (c : Int) + 2)

def gen_moves_for_one_side (b : Board) (s : Side) : List Move :=
  interior_coords.flatMap fun rc =>
    if piece_side (b.get rc.1 rc.2) = s then piece_steps b (b.get rc.1 rc.2) ⟨rc.1, rc.2⟩
    else []

/-! ### The search engine

Scores are C++ `float`s; the search only compares scores and takes
max/min of them, so we model them exactly as `ℚ`.  `fmax`/`fmin` are
`std::max`/`std::min` ((a < b) ? b : a and (b < a) ? b : a).  The board is
mutated by `move` and restored by `undo` around every recursive call; since
`Board.undo` restores the popped snapshot exactly
(`Elysia.move_undo_exact` below) we model each recursive call as acting on
the pure child state `b.move mv`. -/

def LOWER_BOUND : ℚ := -5000000

def UPPER_BOUND : ℚ := 5000000

/-- The body of the `isMax` for-loop of `BestMoveGen::min_max`, with the
`alpha >= beta` break. -/
def ab_max_loop (rec : Board → ℚ → ℚ → ℚ) (b : Board) :
    List Move → ℚ → ℚ → ℚ → ℚ
  | [], bestVal, _, _ => bestVal
  | mv :: rest, bestVal, alpha, beta =>
    let bestVal' := fmax bestVal (rec (b.move mv) alpha beta)
    let alpha' := fmax alpha bestVal'
    if beta ≤ alpha' then bestVal'
    else ab_max_loop rec b rest bestVal' alpha' beta

/-- The body of the `!isMax` for-loop of `BestMoveGen::min_max`, with the
`alpha >= beta` break. -/
def ab_min_loop (rec : Board → ℚ → ℚ → ℚ) (b : Board) :
    List Move → ℚ → ℚ → ℚ → ℚ
  | [], bestVal, _, _ => bestVal
  | mv :: rest, bestVal, alpha, beta =>
    let bestVal' := fmin bestVal (rec (b.move mv) alpha beta)
    let beta' := fmin beta bestVal'
    if beta' ≤ alpha then bestVal'
    else ab_min_loop rec b rest bestVal' alpha beta'

/-- `BestMoveGen::min_max` (identical to `BestMoveGenParallel::min_max`),
parameterised by the evaluator (whose weight tables are loaded from
external files). -/
def min_max (ev : Board → ℚ) : Nat → Board → ℚ → ℚ → Bool → ℚ
  | 0, b, _, _, _ => ev b
  | d + 1, b, alpha, beta, true =>
    ab_max_loop (fun b' a' b'' => min_max ev d b' a' b'' false) b
      (gen_moves_for_one_side b Side.down) LOWER_BOUND alpha beta
  | d + 1, b, alpha, beta, false =>
    ab_min_loop (fun b' a' b'' => min_max ev d b' a' b'' true) b
      (gen_moves_for_one_side b Side.upper) UPPER_BOUND alpha beta

/-- The same loop with the `alpha >= beta` early exit removed (the
alpha/beta updates are then dead code): plain minimax folding. -/
def plain_max_loop (rec : Board → ℚ) (b : Board) : List Move → ℚ → ℚ
  | [], bestVal => bestVal
  | mv :: rest, bestVal => plain_max_loop rec b rest (fmax bestVal (rec (b.move mv)))

def plain_min_loop (rec : Board → ℚ) (b : Board) : List Move → ℚ → ℚ
  | [], bestVal => bestVal
  | mv :: rest, bestVal => plain_min_loop rec b rest (fmin bestVal (rec (b.move mv)))

/-- `min_max` with the early-exit removed: plain minimax. -/
def min_max_plain (ev : Board → ℚ) : Nat → Board → Bool → ℚ
  | 0, b, _ => ev b
  | d + 1, b, true =>
    plain_max_loop (fun b' => min_max_plain ev d b' false) b
      (gen_moves_for_one_side b Side.down) LOWER_BOUND
  | d + 1, b, false =>
    plain_min_loop (fun b' => min_max_plain ev d b' true) b
      (gen_moves_for_one_side b Side.upper) UPPER_BOUND

/-- `BestMoveGen::gen_best_for`.  At the root, `alpha`/`beta` stay at the
sentinels throughout the loop (the C++ never updates them there); the pair
carries (bestMove, minValue/maxValue); ties are last-encountered-wins
(`<=` resp. `>=`). -/
def gen_best_for (ev : Board → ℚ) (b : Board) (s : Side) (thinkDepth : Nat) : Move :=
  match s with
  | .upper =>
    let moves := gen_moves_for_one_side b Side.upper
    (moves.foldl (fun acc mv =>
        let val := min_max ev thinkDepth (b.move mv) LOWER_BOUND UPPER_BOUND true
        if val ≤ acc.2 then (mv, val) else acc) (defaultMove, UPPER_BOUND)).1
  | _ =>
    let moves := gen_moves_for_one_side b Side.down
    (moves.foldl (fun acc mv =>
        let val := min_max ev thinkDepth (b.move mv) LOWER_BOUND UPPER_BOUND false
        if acc.2 ≤ val then (mv, val) else acc) (defaultMove, LOWER_BOUND)).1

/-! ### `BestMoveGenParallel` -/

def split_chunk_num : Nat := 32

/-- The `chunkLength`/`chunkNum` adjustment at the top of `split_vector`
(`size_t` values, hence `Nat`). -/
def splitChunkParams (n : Nat) : Nat × Nat :=
  let chunkLength := n / split_chunk_num
  if chunkLength = 0 then (n, 1) else (split_chunk_num, chunkLength)

/-- The first emplace loop runs while `counter != chunkNum - 1` where both
sides are `size_t`: the iteration count is `chunkNum - 1` modulo `2^64`
(for `chunkNum = 0` it underflows to `2^64 - 1`). -/
def splitIterCount (chunkNum : Nat) : Nat := (chunkNum + (2 ^ 64 - 1)) % 2 ^ 64

/-- `std::span{vec.begin() + start, len}`: its contents when in range,
undefined behaviour (`none`) otherwise. -/
def mkSpan (vec : List Move) (start len : Nat) : Option (List Move) :=
  if start + len ≤ vec.length then some ((vec.drop start).take len) else none

def splitLoop (vec : List Move) (chunkLength : Nat) : Nat → Nat → Option (List (List Move))
  | counter, 0 =>
    -- the final emplace takes from `vec.begin() + counter * chunkLength` to `vec.end()`
    if counter * chunkLength ≤ vec.length then some [vec.drop (counter * chunkLength)]
    else none
  | counter, fuel + 1 =>
    match mkSpan vec (counter * chunkLength) chunkLength with
    | none => none
    | some s =>
      match splitLoop vec chunkLength (counter + 1) fuel with
      | none => none
      | some rest => some (s :: rest)

/-- `BestMoveGenParallel::split_vector`.  `none` models the undefined
behaviour of constructing an out-of-range span/iterator. -/
def split_vector (vec : List Move) : Option (List (List Move)) :=
  let params := splitChunkParams vec.length
  splitLoop vec params.2 0 (splitIterCount params.1)

/-- The worker task for `s == Side::upper`: scan one chunk on a private
copy of the board (each `move` is undone exactly, so the copy stays `b`). -/
def chunk_scan_upper (ev : Board → ℚ) (b : Board) (thinkDepth : Nat)
    (chunk : List Move) : Move × ℚ :=
  chunk.foldl (fun acc mv =>
    let val := min_max ev thinkDepth (b.move mv) LOWER_BOUND UPPER_BOUND true
    if val ≤ acc.2 then (mv, val) else acc) (defaultMove, UPPER_BOUND)

def chunk_scan_down (ev : Board → ℚ) (b : Board) (thinkDepth : Nat)
    (chunk : List Move) : Move × ℚ :=
  chunk.foldl (fun acc mv =>
    let val := min_max ev thinkDepth (b.move mv) LOWER_BOUND UPPER_BOUND false
    if acc.2 ≤ val then (mv, val) else acc) (defaultMove, LOWER_BOUND)

/-- The final reduction of `BestMoveGenParallel::gen_best_for` over the
per-chunk `(bestMove, bestValue)` pairs, with the same `<=` rule as the
sequential scan (the C++ `minIndex` starts uninitialised, but the very
first comparison against the sentinel always succeeds since every chunk
value is bounded by it); `none` propagates the undefined behaviour of
`split_vector`. -/
def parReduceUpper (ev : Board → ℚ) (b : Board) (thinkDepth : Nat) :
    Option (List (List Move)) → Option Move
  | none => none
  | some chunks =>
    let results := chunks.map (chunk_scan_upper ev b thinkDepth)
    some (results.foldl (fun acc r => if r.2 ≤ acc.2 then r else acc)
      (defaultMove, UPPER_BOUND)).1

/-- The `maxIndex`/`>=` reduction for `s == Side::down`. -/
def parReduceDown (ev : Board → ℚ) (b : Board) (thinkDepth : Nat) :
    Option (List (List Move)) → Option Move
  | none => none
  | some chunks =>
    let results := chunks.map (chunk_scan_down ev b thinkDepth)
    some (results.foldl (fun acc r => if acc.2 ≤ r.2 then r else acc)
      (defaultMove, LOWER_BOUND)).1

/-- `BestMoveGenParallel::gen_best_for`: split the candidate list into
chunks, scan each chunk in a worker, reduce the per-chunk results. -/
def gen_best_for_parallel (ev : Board → ℚ) (b : Board) (s : Side)
    (thinkDepth : Nat) : Option Move :=
  match s with
  | .upper => parReduceUpper ev b thinkDepth
      (split_vector (gen_moves_for_one_side b Side.upper))
  | _ => parReduceDown ev b thinkDepth
      (split_vector (gen_moves_for_one_side b Side.down))

end Elysia

namespace P000

/-- Pieces are the values of the C++ `enum Piece` (0..13). -/
abbrev Piece := Int

def P_UP : Piece := 0
def P_UR : Piece := 1
def P_UN : Piece := 2
def P_UB : Piece := 3
def P_UQ : Piece := 4
def P_UK : Piece := 5
def P_DP : Piece := 6
def P_DR : Piece := 7
def P_DN : Piece := 8
def P_DB : Piece := 9
def P_DQ : Piece := 10
def P_DK : Piece := 11
def P_EE : Piece := 12
def P_EO : Piece := 13

/-- Reading `data[r][c]` out of range is undefined behaviour; the junk value
falls into every `default:` branch. -/
def junkPiece : Piece := 99

def EDGE_LEN : Int := 12
def LINE_BEGIN : Int := 2
def LINE_END : Int := 10
def UPPER_PAWN_BEGIN_ROW : Int := 3
def DOWN_PAWN_BEGIN_ROW : Int := 8
def UPPER_PAWN_PROMOTE_ROW : Int := 9
def DOWN_PAWN_PROMOTE_ROW : Int := 2

inductive Side where
  | upper
  | down
  | extra
deriving DecidableEq

inductive PieceType where
  | pawn
  | rook
  | knight
  | bishop
  | queen
  | king
  | empty
  | out
deriving DecidableEq

def get_type (p : Piece) : PieceType :=
  if p = P_UP ∨ p = P_DP then .pawn
  else if p = P_UR ∨ p = P_DR then .rook
  else if p = P_UN ∨ p = P_DN then .knight
  else if p = P_UB ∨ p = P_DB then .bishop
  else if p = P_UQ ∨ p = P_DQ then .queen
  else if p = P_UK ∨ p = P_DK then .king
  else if p = P_EE then .empty
  else .out

def get_side (p : Piece) : Side :=
  if p = P_UP ∨ p = P_UR ∨ p = P_UN ∨ p = P_UB ∨ p = P_UQ ∨ p = P_UK then .upper
  else if p = P_DP ∨ p = P_DR ∨ p = P_DN ∨ p = P_DB ∨ p = P_DQ ∨ p = P_DK then .down
  else .extra

structure Pos where
  row : Int
  col : Int
deriving DecidableEq

inductive MoveType where
  | invalid
  | normal
  | en_passant
  | long_castle
  | short_castle
  | go_and_promote
  | pawn_2_steps
deriving DecidableEq

structure Move where
  fromPos : Pos
  toPos : Pos
  moveType : MoveType
deriving DecidableEq

/-- `ChessBoard::HistoryNode`. -/
structure HistoryNode where
  fromPos : Pos
  toPos : Pos
  moveType : MoveType
  fromP : Piece
  toP : Piece
deriving DecidableEq

/-- `ChessBoard`: the 12x12 grid (row-major list), the undo history (newest
first), the two castle flags and the en-passant position. -/
structure ChessBoard where
  data : List Piece
  history : List HistoryNode
  canUpperCastle : Bool
  canDownCastle : Bool
  enPassantPos : Pos
deriving DecidableEq

def ChessBoard.get (cb : ChessBoard) (r c : Int) : Piece :=
  if 0 ≤ r ∧ r < EDGE_LEN ∧ 0 ≤ c ∧ c < EDGE_LEN then
    cb.data.getD (r * EDGE_LEN + c).toNat junkPiece
  else junkPiece

def ChessBoard.getP (cb : ChessBoard) (pos : Pos) : Piece :=
  cb.get pos.row pos.col

def ChessBoard.set (cb : ChessBoard) (r c : Int) (p : Piece) : ChessBoard :=
  if 0 ≤ r ∧ r < EDGE_LEN ∧ 0 ≤ c ∧ c < EDGE_LEN then
    { cb with data := cb.data.set (r * EDGE_LEN + c).toNat p }
  else cb

def ChessBoard.setP (cb : ChessBoard) (pos : Pos) (p : Piece) : ChessBoard :=
  cb.set pos.row pos.col p

def ChessBoard.reset_castle (cb : ChessBoard) (s : Side) : ChessBoard :=
  if s = Side.upper then { cb with canUpperCastle := true }
  else { cb with canDownCastle := true }

def ChessBoard.reset_en_passant (cb : ChessBoard) : ChessBoard :=
  { cb with enPassantPos := ⟨0, 0⟩ }

/-- `ChessBoard::move(Move const&)` (the non-promotion overload). -/
def ChessBoard.move (cb : ChessBoard) (mv : Move) : ChessBoard :=
  let fromP := cb.getP mv.fromPos
  let cb0 : ChessBoard :=
    { cb with history := ⟨mv.fromPos, mv.toPos, mv.moveType, fromP, cb.getP mv.toPos⟩ :: cb.history }
  let cb1 := (cb0.setP mv.toPos fromP).setP mv.fromPos P_EE
  let cb2 := cb1.reset_en_passant
  let cb3 :=
    if fromP = P_UK then { cb2 with canUpperCastle := false }
    else if fromP = P_DK then { cb2 with canDownCastle := false }
    else cb2
  if mv.moveType = MoveType.long_castle then
    (cb3.set mv.fromPos.row (mv.fromPos.col - 1)
        (cb3.get mv.fromPos.row (mv.fromPos.col - 4))).set
      mv.fromPos.row (mv.fromPos.col - 4) P_EE
  else if mv.moveType = MoveType.short_castle then
    (cb3.set mv.fromPos.row (mv.fromPos.col + 1)
        (cb3.get mv.fromPos.row (mv.fromPos.col + 3))).set
      mv.fromPos.row (mv.fromPos.col + 3) P_EE
  else if mv.moveType = MoveType.en_passant then
    cb3.set mv.fromPos.row mv.toPos.col P_EE
  else if mv.moveType = MoveType.pawn_2_steps then
    let s := get_side fromP
    let reversePawn := if s = Side.upper then P_DP else P_UP
    if cb3.get mv.fromPos.row (mv.fromPos.col - 1) = reversePawn then
      { cb3 with enPassantPos := ⟨mv.fromPos.row, mv.fromPos.col - 1⟩ }
    else if cb3.get mv.fromPos.row (mv.fromPos.col + 1) = reversePawn then
      { cb3 with enPassantPos := ⟨mv.fromPos.row, mv.fromPos.col + 1⟩ }
    else cb3
  else cb3

/-- `ChessBoard::undo`: replays the last `HistoryNode` delta. -/
def ChessBoard.undo (cb : ChessBoard) : ChessBoard :=
  match cb.history with
  | [] => cb
  | hist :: rest =>
    let cb1 := (cb.setP hist.fromPos hist.fromP).setP hist.toPos hist.toP
    let cb2 : ChessBoard := { cb1 with history := rest }
    if hist.moveType = MoveType.long_castle then
      ((cb2.set hist.fromPos.row (hist.fromPos.col - 4)
          (cb2.get hist.fromPos.row (hist.fromPos.col - 1))).set
        hist.fromPos.row (hist.fromPos.col - 1) P_EE).reset_castle (get_side hist.fromP)
    else if hist.moveType = MoveType.short_castle then
      ((cb2.set hist.fromPos.row (hist.fromPos.col + 3)
          (cb2.get hist.fromPos.row (hist.fromPos.col + 1))).set
        hist.fromPos.row (hist.fromPos.col + 1) P_EE).reset_castle (get_side hist.fromP)
    else if hist.moveType = MoveType.en_passant then
      let cb3 := cb2.set hist.fromPos.row hist.toPos.col
        (if get_side hist.fromP = Side.upper then P_DP else P_UP)
      { cb3 with enPassantPos := ⟨hist.fromPos.row, hist.toPos.col⟩ }
    else cb2

def try_add_possible_move (cb : ChessBoard) (fromPos toPos : Pos) : List Move × Bool :=
  let fromP := cb.getP fromPos
  let toP := cb.getP toPos
  if toP = P_EO then ([], false)
  else if toP = P_EE then ([⟨fromPos, toPos, .normal⟩], true)
  else if get_side fromP ≠ get_side toP then ([⟨fromPos, toPos, .normal⟩], false)
  else ([], false)

def ray_fuel : Nat := 12

def gen_ray (cb : ChessBoard) (fromPos : Pos) (dr dc : Int) : Nat → Pos → List Move
  | 0, _ => []
  | fuel + 1, p =>
    let step := try_add_possible_move cb fromPos p
    if step.2 then step.1 ++ gen_ray cb fromPos dr dc fuel ⟨p.row + dr, p.col + dc⟩
    else step.1

def gen_crossing (cb : ChessBoard) (f : Pos) : List Move :=
  gen_ray cb f (-1) 0 ray_fuel ⟨f.row - 1, f.col⟩ ++
  gen_ray cb f 1 0 ray_fuel ⟨f.row + 1, f.col⟩ ++
  gen_ray cb f 0 (-1) ray_fuel ⟨f.row, f.col - 1⟩ ++
  gen_ray cb f 0 1 ray_fuel ⟨f.row, f.col + 1⟩

def gen_diagonal (cb : ChessBoard) (f : Pos) : List Move :=
  gen_ray cb f (-1) (-1) ray_fuel ⟨f.row - 1, f.col - 1⟩ ++
  gen_ray cb f (-1) 1 ray_fuel ⟨f.row - 1, f.col + 1⟩ ++
  gen_ray cb f 1 (-1) ray_fuel ⟨f.row + 1, f.col - 1⟩ ++
  gen_ray cb f 1 1 ray_fuel ⟨f.row + 1, f.col + 1⟩

/-- `gen_moves_pawn`; its local `add_and_check_promote` lambda emits a single
move whose type is `GO_AND_PROMOTE` or `NORMAL`. -/
def gen_moves_pawn (cb : ChessBoard) (f : Pos) : List Move :=
  let fromP := cb.getP f
  let ep := cb.enPassantPos
  if fromP = P_UP then
    (if f.row = ep.row ∧ (f.col + 1 = ep.col ∨ f.col - 1 = ep.col) then
      [⟨f, ⟨f.row + 1, ep.col⟩, .en_passant⟩]
    else []) ++
    (if cb.get (f.row + 1) f.col = P_EE then
      (if f.row = UPPER_PAWN_BEGIN_ROW ∧ cb.get (f.row + 2) f.col = P_EE then
        [⟨f, ⟨f.row + 2, f.col⟩, .pawn_2_steps⟩]
      else []) ++
      [⟨f, ⟨f.row + 1, f.col⟩,
        if f.row + 1 = UPPER_PAWN_PROMOTE_ROW then .go_and_promote else .normal⟩]
    else []) ++
    ([f.col + 1, f.col - 1].flatMap fun c =>
      let p := cb.get (f.row + 1) c
      let s := get_side p
      if s ≠ Side.extra ∧ s ≠ get_side fromP then
        [⟨f, ⟨f.row + 1, c⟩,
          if f.row + 1 = UPPER_PAWN_PROMOTE_ROW then .go_and_promote else .normal⟩]
      else [])
  else
    (if f.row = ep.row ∧ (f.col + 1 = ep.col ∨ f.col - 1 = ep.col) then
      [⟨f, ⟨f.row - 1, ep.col⟩, .en_passant⟩]
    else []) ++
    (if cb.get (f.row - 1) f.col = P_EE then
      (if f.row = DOWN_PAWN_BEGIN_ROW ∧ cb.get (f.row - 2) f.col = P_EE then
        [⟨f, ⟨f.row - 2, f.col⟩, .pawn_2_steps⟩]
      else []) ++
      [⟨f, ⟨f.row - 1, f.col⟩,
        if f.row - 1 = DOWN_PAWN_PROMOTE_ROW then .go_and_promote else .normal⟩]
    else []) ++
    ([f.col + 1, f.col - 1].flatMap fun c =>
      let p := cb.get (f.row - 1) c
      let s := get_side p
      if s ≠ Side.extra ∧ s ≠ get_side fromP then
        [⟨f, ⟨f.row - 1, c⟩,
          if f.row - 1 = DOWN_PAWN_PROMOTE_ROW then .go_and_promote else .normal⟩]
      else [])

def gen_moves_rook (cb : ChessBoard) (f : Pos) : List Move :=
  gen_crossing cb f

def gen_moves_knight (cb : ChessBoard) (f : Pos) : List Move :=
  (try_add_possible_move cb f ⟨f.row + 2, f.col - 1⟩).1 ++
  (try_add_possible_move cb f ⟨f.row + 2, f.col + 1⟩).1 ++
  (try_add_possible_move cb f ⟨f.row + 1, f.col - 2⟩).1 ++
  (try_add_possible_move cb f ⟨f.row + 1, f.col + 2⟩).1 ++
  (try_add_possible_move cb f ⟨f.row - 1, f.col - 2⟩).1 ++
  (try_add_possible_move cb f ⟨f.row - 1, f.col + 2⟩).1 ++
  (try_add_possible_move cb f ⟨f.row - 2, f.col - 1⟩).1 ++
  (try_add_possible_move cb f ⟨f.row - 2, f.col + 1⟩).1

def gen_moves_bishop (cb : ChessBoard) (f : Pos) : List Move :=
  gen_diagonal cb f

def gen_moves_queen (cb : ChessBoard) (f : Pos) : List Move :=
  gen_crossing cb f ++ gen_diagonal cb f

/-- `gen_moves_king`: the eight `try_add_possible_move` calls exactly as
they appear in the source (the four diagonal offsets, each listed twice;
no orthogonal offsets appear). -/
def gen_moves_king (cb : ChessBoard) (f : Pos) : List Move :=
  (try_add_possible_move cb f ⟨f.row + 1, f.col - 1⟩).1 ++
  (try_add_possible_move cb f ⟨f.row + 1, f.col + 1⟩).1 ++
  (try_add_possible_move cb f ⟨f.row + 1, f.col - 1⟩).1 ++
  (try_add_possible_move cb f ⟨f.row + 1, f.col + 1⟩).1 ++
  (try_add_possible_move cb f ⟨f.row - 1, f.col - 1⟩).1 ++
  (try_add_possible_move cb f ⟨f.row - 1, f.col + 1⟩).1 ++
  (try_add_possible_move cb f ⟨f.row - 1, f.col - 1⟩).1 ++
  (try_add_possible_move cb f ⟨f.row - 1, f.col + 1⟩).1 ++
  (match get_side (cb.getP f) with
   | .upper =>
     if cb.canUpperCastle then
       (if cb.get f.row (f.col + 1) = P_EE ∧ cb.get f.row (f.col + 2) = P_EE ∧
           cb.get f.row (f.col + 3) = P_UR then
         [⟨f, ⟨f.row, f.col + 2⟩, .short_castle⟩]
       else []) ++
       (if cb.get f.row (f.col - 1) = P_EE ∧ cb.get f.row (f.col - 2) = P_EE ∧
           cb.get f.row (f.col - 3) = P_EE ∧ cb.get f.row (f.col - 4) = P_UR then
         [⟨f, ⟨f.row, f.col - 2⟩, .long_castle⟩]
       else [])
     else []
   | .down =>
     if cb.canDownCastle then
       (if cb.get f.row (f.col + 1) = P_EE ∧ cb.get f.row (f.col + 2) = P_EE ∧
           cb.get f.row (f.col + 3) = P_DR then
         [⟨f, ⟨f.row, f.col + 2⟩, .short_castle⟩]
       else []) ++
       (if cb.get f.row (f.col - 1) = P_EE ∧ cb.get f.row (f.col - 2) = P_EE ∧
           cb.get f.row (f.col - 3) = P_EE ∧ cb.get f.row (f.col - 4) = P_DR then
         [⟨f, ⟨f.row, f.col - 2⟩, .long_castle⟩]
       else [])
     else []
   | .extra => [])

def piece_steps (cb : ChessBoard) (p : Piece) (pos : Pos) : List Move :=
  match get_type p with
  | .pawn => gen_moves_pawn cb pos
  | .rook => gen_moves_rook cb pos
  | .knight => gen_moves_knight cb pos
  | .bishop => gen_moves_bishop cb pos
  | .queen => gen_moves_queen cb pos
  | .king => gen_moves_king cb pos
  | _ => []

def gen_one_position_moves (cb : ChessBoard) (f : Pos) : List Move :=
  piece_steps cb (cb.getP f) f

def interior_coords : List (Int × Int) :=
  (List.range 8).flatMap fun r => (List.range 8).map fun c => ((r : Int) + 2, (c : Int) + 2)

def gen_one_side_moves (cb : ChessBoard) (s : Side) : List Move :=
  interior_coords.flatMap fun rc =>
    if get_side (cb.get rc.1 rc.2) = s then piece_steps cb (cb.get rc.1 rc.2) ⟨rc.1, rc.2⟩
    else []

/-! ### The `part_000` search

Its `min_max` uses `std::numeric_limits<float>::min()` as the lower
sentinel: that is the smallest *positive* normal float, `2^-126`, not a
negative number (`chess_with_elysia.cpp` carries an explicit comment
warning about exactly this).  The upper sentinel is `FLT_MAX =
(2^24 - 1) * 2^104`.  Both are exactly representable in `ℚ`. -/

def fltMin : ℚ := ⟨1, 2 ^ 126, by norm_num, Nat.coprime_one_left _⟩

def fltMax : ℚ := ⟨(2 ^ 24 - 1) * 2 ^ 104, 1, one_ne_zero, Nat.coprime_one_right _⟩

/-- The `PS_DOWN` loop of `min_max`, with the `alpha >= beta` break.  The
board is threaded explicitly: `part_000`'s `undo` does *not* always restore
the previous state, so the mutate/recurse/undo sequence cannot be modelled
as pure child states. -/
def go_max (rec : ChessBoard → ℚ → ℚ → ℚ × ChessBoard) :
    List Move → ChessBoard → ℚ → ℚ → ℚ → ℚ × ChessBoard
  | [], cb, best, _, _ => (best, cb)
  | mv :: rest, cb, best, alpha, beta =>
    let r1 := rec (cb.move mv) alpha beta
    let cb2 := r1.2.undo
    let best' := fmax best r1.1
    let alpha' := fmax alpha best'
    if beta ≤ alpha' then (best', cb2)
    else go_max rec rest cb2 best' alpha' beta

/-- The `else` (upper) loop of `min_max`, with the `alpha >= beta` break. -/
def go_min (rec : ChessBoard → ℚ → ℚ → ℚ × ChessBoard) :
    List Move → ChessBoard → ℚ → ℚ → ℚ → ℚ × ChessBoard
  | [], cb, best, _, _ => (best, cb)
  | mv :: rest, cb, best, alpha, beta =>
    let r1 := rec (cb.move mv) alpha beta
    let cb2 := r1.2.undo
    let best' := fmin best r1.1
    let beta' := fmin beta best'
    if beta' ≤ alpha then (best', cb2)
    else go_min rec rest cb2 best' alpha beta'

/-- `part_000`'s `min_max`, parameterised by the evaluator
(`calc_board_score` reads externally loaded weight tables). -/
def min_max (ev : ChessBoard → ℚ) : Nat → ChessBoard → ℚ → ℚ → Side → ℚ × ChessBoard
  | 0, cb, _, _, _ => (ev cb, cb)
  | d + 1, cb, alpha, beta, side =>
    let moves := gen_one_side_moves cb side
    if side = Side.down then
      go_max (fun cb' a' b' => min_max ev d cb' a' b' Side.upper) moves cb fltMin alpha beta
    else
      go_min (fun cb' a' b' => min_max ev d cb' a' b' Side.down) moves cb fltMax alpha beta

/-- The same loops with the `alpha >= beta` early exit removed (the
alpha/beta updates remain, now without effect). -/
def go_max_plain (rec : ChessBoard → ℚ → ℚ → ℚ × ChessBoard) :
    List Move → ChessBoard → ℚ → ℚ → ℚ → ℚ × ChessBoard
  | [], cb, best, _, _ => (best, cb)
  | mv :: rest, cb, best, alpha, beta =>
    let r1 := rec (cb.move mv) alpha beta
    let cb2 := r1.2.undo
    let best' := fmax best r1.1
    let alpha' := fmax alpha best'
    go_max_plain rec rest cb2 best' alpha' beta

def go_min_plain (rec : ChessBoard → ℚ → ℚ → ℚ × ChessBoard) :
    List Move → ChessBoard → ℚ → ℚ → ℚ → ℚ × ChessBoard
  | [], cb, best, _, _ => (best, cb)
  | mv :: rest, cb, best, alpha, beta =>
    let r1 := rec (cb.move mv) alpha beta
    let cb2 := r1.2.undo
    let best' := fmin best r1.1
    let beta' := fmin beta best'
    go_min_plain rec rest cb2 best' alpha beta'

/-- `part_000`'s `min_max` with the early exit removed: plain minimax. -/
def min_max_plain (ev : ChessBoard → ℚ) : Nat → ChessBoard → ℚ → ℚ → Side → ℚ × ChessBoard
  | 0, cb, _, _, _ => (ev cb, cb)
  | d + 1, cb, alpha, beta, side =>
    let moves := gen_one_side_moves cb side
    if side = Side.down then
      go_max_plain (fun cb' a' b' => min_max_plain ev d cb' a' b' Side.upper) moves cb fltMin alpha beta
    else
      go_min_plain (fun cb' a' b' => min_max_plain ev d cb' a' b' Side.down) moves cb fltMax alpha beta

def pieceOfChar (ch : Char) : Piece :=
  if ch = 'P' then P_UP
  else if ch = 'R' then P_UR
  else if ch = 'N' then P_UN
  else if ch = 'B' then P_UB
  else if ch = 'Q' then P_UQ
  else if ch = 'K' then P_UK
  else if ch = 'p' then P_DP
  else if ch = 'r' then P_DR
  else if ch = 'n' then P_DN
  else if ch = 'b' then P_DB
  else if ch = 'q' then P_DQ
  else if ch = 'k' then P_DK
  else if ch = '.' then P_EE
  else P_EO

/-- Modelled from the spec: `ChessBoard`'s constructor fills the grid with
`P_EO` and loads the inner 8x8 from `res/default_board.txt`, a resource file
that is not under `src/`.  The spec fixes construction "from a fixed initial
layout"; we use the standard chess layout, which is also the layout
`chess_with_elysia.cpp` hard-codes in `Board::reset`.  The constructor
initialises both castle flags to `true` and the en-passant position is
default-constructed to `(0, 0)`. -/
def initialBoard : ChessBoard :=
  ⟨(("############" ++ "############" ++ "##RNBQKBNR##" ++ "##PPPPPPPP##" ++
     "##........##" ++ "##........##" ++ "##........##" ++ "##........##" ++
     "##pppppppp##" ++ "##rnbqkbnr##" ++ "############" ++ "############").data.map
      pieceOfChar),
   [], true, true, ⟨0, 0⟩⟩

end P000

namespace Elysia

/-! ### Basic facts about `Board.move` / `Board.undo` -/

theorem Board.history_set (b : Board) (r c : Int) (p : Piece) :
    (b.set r c p).history = b.history := by
  unfold Board.set
  dsimp only
  split <;> rfl

theorem Board.history_setP (b : Board) (pos : Pos) (p : Piece) :
    (b.setP pos p).history = b.history :=
  Board.history_set ..

theorem Board.history_set_upper_castle_flag (b : Board) (f : Bool) :
    (b.set_upper_castle_flag f).history = b.history := rfl

theorem Board.history_set_down_castle_flag (b : Board) (f : Bool) :
    (b.set_down_castle_flag f).history = b.history := rfl

theorem Board.history_set_en_passant_pos (b : Board) (r c : Int) :
    (b.set_en_passant_pos r c).history = b.history := rfl

theorem Board.history_reset_en_passant_pos (b : Board) :
    b.reset_en_passant_pos.history = b.history := rfl

theorem Board.history_ite (c : Prop) [Decidable c] (x y : Board) :
    (if c then x else y).history = if c then x.history else y.history :=
  apply_ite Board.history c x y

/-- Every non-invalid `move` pushes exactly the pre-move grid string onto
the history. -/
theorem Board.move_history (b : Board) (mv : Move) (h : mv.moveType ≠ MoveType.invalid) :
    (b.move mv).history = b.data :: b.history := by
  unfold Board.move
  rw [if_neg h]
  simp only [Board.history_ite, Board.history_set, Board.history_setP,
    Board.history_set_upper_castle_flag, Board.history_set_down_castle_flag,
    Board.history_set_en_passant_pos, Board.history_reset_en_passant_pos, ite_self]

theorem Board.undo_of_history (X : Board) (d : List Piece) (rest : List (List Piece))
    (h : X.history = d :: rest) : X.undo = ⟨d, rest⟩ := by
  cases X with
  | mk dt hs =>
    cases hs with
    | nil => simp at h
    | cons a as =>
      injection h with h1 h2
      subst h1; subst h2
      rfl

/-- `undo` exactly reverses any non-invalid `move` on the snapshot-based
board of `chess_with_elysia.cpp`: the full board state, history included,
is restored bit for bit.  (This is the justification for modelling the
C++ mutate/recurse/undo pattern by recursion on pure child states.) -/
theorem move_undo_exact (b : Board) (mv : Move) (h : mv.moveType ≠ MoveType.invalid) :
    (b.move mv).undo = b :=
  Board.undo_of_history _ _ _ (Board.move_history b mv h)

/-- Convenience constructor for concrete test boards. -/
def boardOfString (s : String) : Board :=
  ⟨s.data.map (fun ch => (ch.toNat : Int)), []⟩

/-! ### Concrete test positions -/

/-- A board with no pieces at all (flags and en-passant bytes cleared):
both sides have an empty candidate list. -/
def emptyBoard : Board := boardOfString
  ("############" ++ "############" ++ "##........##" ++ "##........##" ++
   "##........##" ++ "##........##" ++ "##........##" ++ "##........##" ++
   "##........##" ++ "##........##" ++ "############" ++ "############" ++ "0000")

/-- A trivial evaluator (stands in for the externally loaded weight tables). -/
def evZero : Board → ℚ := fun _ => 0

/-- C5 test: upper pawn at (3,4), down pawn at (3,3) (adjacent on the
*source* rank), no pawn anywhere near the destination rank 5. -/
def c5Board : Board := boardOfString
  ("############" ++ "############" ++ "##........##" ++ "##.pP.....##" ++
   "##........##" ++ "##........##" ++ "##........##" ++ "##........##" ++
   "##........##" ++ "##........##" ++ "############" ++ "############" ++ "0000")

def c5Move : Move := ⟨⟨3, 4⟩, ⟨5, 4⟩, .pawn_2_steps, P_EO⟩

/-- C6 test: a sequence of generated moves (not alternating sides — `move`
never checks whose turn it is): the down d-pawn marches (8,4)→(6,4)→(5,4)→
(4,4) and captures on (3,3); then the upper pawn on (3,4) double-steps to
(5,4) with the down pawn now adjacent on its *source* rank. -/
def c6Move1 : Move := ⟨⟨8, 4⟩, ⟨6, 4⟩, .pawn_2_steps, P_EO⟩
def c6Move2 : Move := ⟨⟨6, 4⟩, ⟨5, 4⟩, .normal, P_EO⟩
def c6Move3 : Move := ⟨⟨5, 4⟩, ⟨4, 4⟩, .normal, P_EO⟩
def c6Move4 : Move := ⟨⟨4, 4⟩, ⟨3, 3⟩, .normal, P_EO⟩
def c6Move5 : Move := ⟨⟨3, 4⟩, ⟨5, 4⟩, .pawn_2_steps, P_EO⟩
def c6Board1 : Board := resetBoard.move c6Move1
def c6Board2 : Board := c6Board1.move c6Move2
def c6Board3 : Board := c6Board2.move c6Move3
def c6Board4 : Board := c6Board3.move c6Move4
def c6Board5 : Board := c6Board4.move c6Move5

/-- C4 test: border intact; en-passant bytes `'3','3'` (so `en_passant_pos`
reports (5,5)); upper pawn at (5,4); upper rook at (6,5); upper king at
(5,9) with the castle flag set and the bytes next to the *fixed* king start
square reading `..R`. -/
def c4Board : Board := boardOfString
  ("############" ++ "############" ++ "##.......R##" ++ "##........##" ++
   "##........##" ++ "##..P....K##" ++ "##...R....##" ++ "##........##" ++
   "##........##" ++ "##........##" ++ "############" ++ "############" ++ "1033")

def c4EpMove : Move := ⟨⟨5, 4⟩, ⟨6, 5⟩, .en_passant, P_EO⟩
def c4CastleMove : Move := ⟨⟨5, 9⟩, ⟨5, 11⟩, .short_castling, P_EO⟩

/-- C7 test: castle flag set and `..R` at the fixed start-square bytes, but
the king stands on (5,5) with a friendly pawn on (5,6) and no rook at
(5,8). -/
def c7Board : Board := boardOfString
  ("############" ++ "############" ++ "##.......R##" ++ "##........##" ++
   "##........##" ++ "##...KP...##" ++ "##........##" ++ "##........##" ++
   "##........##" ++ "##........##" ++ "############" ++ "############" ++ "1000")

def c7CastleMove : Move := ⟨⟨5, 5⟩, ⟨5, 7⟩, .short_castling, P_EO⟩

/-- C9 test (Elysia side): a lone upper king at (5,5), castle flags
cleared. -/
def c9KingBoard : Board := boardOfString
  ("############" ++ "############" ++ "##........##" ++ "##........##" ++
   "##........##" ++ "##...K....##" ++ "##........##" ++ "##........##" ++
   "##........##" ++ "##........##" ++ "############" ++ "############" ++ "0000")

end Elysia

namespace P000

/-- C1 test: a generated pawn move frees the diagonal, then a generated
plain king move (2,6)→(3,7). -/
def c1Move0 : Move := ⟨⟨3, 7⟩, ⟨4, 7⟩, .normal⟩
def c1Board1 : ChessBoard := initialBoard.move c1Move0
def c1Move1 : Move := ⟨⟨2, 6⟩, ⟨3, 7⟩, .normal⟩

/-- C9 test (part_000 side): a lone upper king at (5,5), castle flags
cleared. -/
def c9KingBoard : ChessBoard :=
  ⟨(("############" ++ "############" ++ "##........##" ++ "##........##" ++
     "##........##" ++ "##...K....##" ++ "##........##" ++ "##........##" ++
     "##........##" ++ "##........##" ++ "############" ++ "############").data.map
      pieceOfChar),
   [], false, false, ⟨0, 0⟩⟩

/-- C2 test: a lone upper rook at (2,2). -/
def c2Board : ChessBoard :=
  ⟨(("############" ++ "############" ++ "##R.......##" ++ "##........##" ++
     "##........##" ++ "##........##" ++ "##........##" ++ "##........##" ++
     "##........##" ++ "##........##" ++ "############" ++ "############").data.map
      pieceOfChar),
   [], false, false, ⟨0, 0⟩⟩

/-- C2 test evaluator: scores the position reached by the rook's first
generated move (rook on (3,2)) as -5 and every other position as -9;
consistent with the spec's "higher is better for the down side" polarity
(only upper pieces are on the board). -/
def c2ev : ChessBoard → ℚ := fun cb => if cb.get 3 2 = P_UR then -5 else -9

end P000

/-- C10: calling `Board::move` with an invalid-tagged `Move` changes
nothing and records nothing: the board (grid, flags, en-passant bytes and
the undo history) is returned unchanged, so a subsequent `undo()` reverts
the previous real move rather than this call. -/
theorem C10_invalid_move_is_noop (b : Elysia.Board) (mv : Elysia.Move)
    (h : mv.moveType = Elysia.MoveType.invalid) :
    b.move mv = b ∧ (b.move mv).undo = b.undo := by
  have hb : b.move mv = b := by
    unfold Elysia.Board.move
    rw [if_pos h]
  exact ⟨hb, by rw [hb]⟩

theorem C10_invalid_move_is_noop_witness :
    Elysia.resetBoard.move Elysia.defaultMove = Elysia.resetBoard ∧
      (Elysia.resetBoard.move Elysia.defaultMove).undo = Elysia.resetBoard.undo :=
  C10_invalid_move_is_noop Elysia.resetBoard Elysia.defaultMove rfl

/-- C1 (failing-input evaluation): on `part_000`'s board, after the
generated pawn move (3,7)→(4,7), the generated plain king move (2,6)→(3,7)
followed by `undo()` restores the grid but *not* the castle flag: the flag
was `true` before the move and is still `false` after the undo, so the
state is not restored bit for bit.  (The snapshot-based undo of
`chess_with_elysia.cpp` is exact: `Elysia.move_undo_exact`.) -/
theorem C1_p000_undo_drops_castle_flag :
    P000.c1Move0 ∈ P000.gen_one_side_moves P000.initialBoard P000.Side.upper ∧
    P000.c1Move1 ∈ P000.gen_one_side_moves P000.c1Board1 P000.Side.upper ∧
    P000.c1Board1.canUpperCastle = true ∧
    ((P000.c1Board1.move P000.c1Move1).undo).canUpperCastle = false ∧
    ((P000.c1Board1.move P000.c1Move1).undo).data = P000.c1Board1.data := by
  decide

/-- C2 (failing-input evaluation): `part_000`'s `min_max` uses
`std::numeric_limits<float>::min()` — a *positive* number — as the lower
sentinel.  At a minimising (upper) node every score below that sentinel
triggers `alpha >= beta`, so with the concrete evaluator `c2ev` the pruned
search over the lone-rook board returns -5 at depth 1 while the identical
recursion with the early exit removed returns the true minimum -9. -/
theorem C2_p000_pruning_changes_value :
    (P000.min_max P000.c2ev 1 P000.c2Board P000.fltMin P000.fltMax P000.Side.upper).1 = -5 ∧
    (P000.min_max_plain P000.c2ev 1 P000.c2Board P000.fltMin P000.fltMax P000.Side.upper).1 = -9 ∧
    (0 : ℚ) < P000.fltMin := by
  decide

/-- C5 (failing-input evaluation): applying the pawn-double-step
(3,4)→(5,4) on `c5Board`, where no enemy pawn is adjacent on the
destination rank 5 (only on the source rank 3), nevertheless leaves an
active en-passant target — and that target is (5,5), not the skipped
square (4,4): `set_en_passant_pos` stores absolute coordinates of the
source-rank neighbour while `en_passant_pos` adds `line_begin` to them. -/
theorem C5_en_passant_target_wrong :
    (Elysia.c5Board.move Elysia.c5Move).get 5 3 ≠ Elysia.P_DP ∧
    (Elysia.c5Board.move Elysia.c5Move).get 5 5 ≠ Elysia.P_DP ∧
    (Elysia.c5Board.move Elysia.c5Move).has_chance_to_do_en_passant = true ∧
    (Elysia.c5Board.move Elysia.c5Move).en_passant_pos = ⟨5, 5⟩ := by
  decide

/-- C9 (failing-input evaluation): `part_000`'s king generator tries only
the four diagonal offsets, each twice: a lone king at (5,5) yields the
eight-entry destination list with duplicates, and the orthogonally adjacent
empty square (5,6) is never offered.  The king-step generator of
`chess_with_elysia.cpp` on the same position produces the 8 distinct
neighbours. -/
theorem C9_p000_king_offsets_wrong :
    (P000.gen_one_position_moves P000.c9KingBoard ⟨5, 5⟩).map (fun m => m.toPos) =
      [⟨6, 4⟩, ⟨6, 6⟩, ⟨6, 4⟩, ⟨6, 6⟩, ⟨4, 4⟩, ⟨4, 6⟩, ⟨4, 4⟩, ⟨4, 6⟩] ∧
    P000.c9KingBoard.get 5 6 = P000.P_EE ∧
    (⟨5, 6⟩ : P000.Pos) ∉
      (P000.gen_one_position_moves P000.c9KingBoard ⟨5, 5⟩).map (fun m => m.toPos) ∧
    (Elysia.king_steps Elysia.c9KingBoard ⟨5, 5⟩).map (fun m => m.toPos) =
      [⟨4, 4⟩, ⟨4, 5⟩, ⟨4, 6⟩, ⟨5, 4⟩, ⟨5, 6⟩, ⟨6, 4⟩, ⟨6, 5⟩, ⟨6, 6⟩] := by
  decide

namespace Elysia

/-- On the empty move list the very first span of the split loop is already
out of range (`chunkLength` was forced to 1), whatever the remaining fuel. -/
theorem splitLoop_nil_eq_none (c k : Nat) : splitLoop [] 1 c (k + 1) = none := by
  simp [splitLoop, mkSpan]

/-- `split_vector` on an empty vector: `chunkNum` becomes 0, the `size_t`
loop bound `chunkNum - 1` underflows to `2^64 - 1`, and the loop slices
out-of-range spans from the empty vector (undefined behaviour). -/
theorem split_vector_nil_eq_none : split_vector [] = none := by
  show splitLoop [] (splitChunkParams 0).2 0 (splitIterCount (splitChunkParams 0).1) = none
  have hp : splitChunkParams 0 = (0, 1) := by norm_num [splitChunkParams, split_chunk_num]
  rw [hp]
  have hc : splitIterCount 0 = (2 ^ 64 - 2) + 1 := by norm_num [splitIterCount]
  rw [hc]
  exact splitLoop_nil_eq_none 0 _

end Elysia

/-- C8: on a board whose root candidate list is empty, the sequential
`gen_best_for` returns the default `Move()` whose tag is `invalid`, as the
claim states — but the parallel variant first calls `split_vector` on the
empty vector, where `chunkNum` becomes 0, the `size_t` loop bound
`chunkNum - 1` underflows to `2^64 - 1`, and the loop builds out-of-range
spans over the empty vector: undefined behaviour instead of the clean
sentinel return the claim asserts. -/
theorem C8_empty_root_list :
    Elysia.gen_moves_for_one_side Elysia.emptyBoard Elysia.Side.upper = [] ∧
    Elysia.gen_best_for Elysia.evZero Elysia.emptyBoard Elysia.Side.upper 3 =
      Elysia.defaultMove ∧
    Elysia.defaultMove.moveType = Elysia.MoveType.invalid ∧
    Elysia.splitIterCount 0 = 2 ^ 64 - 1 ∧
    Elysia.split_vector [] = none := by
  refine ⟨by decide, by decide, rfl, by norm_num [Elysia.splitIterCount],
    Elysia.split_vector_nil_eq_none⟩

/-- C3 (counterexample): the claim quantifies over *every* board state, but
on a board where the side to move has no pieces the sequential search
returns the invalid sentinel while the parallel search runs `split_vector`
on an empty vector — the `size_t` underflow / out-of-range spans modelled
as `none` — so no value can be compared at all. -/
theorem C3_counterexample_empty_board :
    Elysia.gen_best_for_parallel Elysia.evZero Elysia.emptyBoard Elysia.Side.upper 1 = none ∧
    Elysia.gen_best_for Elysia.evZero Elysia.emptyBoard Elysia.Side.upper 1 =
      Elysia.defaultMove := by
  constructor
  · have hg : Elysia.gen_moves_for_one_side Elysia.emptyBoard Elysia.Side.upper = [] := by
      decide
    have hm : Elysia.gen_best_for_parallel Elysia.evZero Elysia.emptyBoard Elysia.Side.upper 1
        = Elysia.parReduceUpper Elysia.evZero Elysia.emptyBoard 1
            (Elysia.split_vector
              (Elysia.gen_moves_for_one_side Elysia.emptyBoard Elysia.Side.upper)) := rfl
    rw [hm, hg, Elysia.split_vector_nil_eq_none]
    rfl
  · decide

/-- C4 (counterexample): on a bordered board, generated en-passant and
castling moves are *not* destination-checked: `c4Board` satisfies the
claim's border hypothesis, yet its generated move list for the upper side
contains an en-passant move onto the friendly rook at (6,5) and a
short-castling move onto the off-board cell (5,11). -/
theorem C4_counterexample_ep_castle :
    (∀ r c : Fin 12,
      ¬(2 ≤ (r : Int) ∧ (r : Int) ≤ 9 ∧ 2 ≤ (c : Int) ∧ (c : Int) ≤ 9) →
        Elysia.c4Board.get (r : Int) (c : Int) = Elysia.P_EO) ∧
    Elysia.c4EpMove ∈ Elysia.gen_moves_for_one_side Elysia.c4Board Elysia.Side.upper ∧
    Elysia.piece_side (Elysia.c4Board.getP Elysia.c4EpMove.toPos) = Elysia.Side.upper ∧
    Elysia.c4CastleMove ∈ Elysia.gen_moves_for_one_side Elysia.c4Board Elysia.Side.upper ∧
    Elysia.c4Board.getP Elysia.c4CastleMove.toPos = Elysia.P_EO := by
  decide

/-- C6 (counterexample): after the five generated moves of the `c6` test
sequence — the last of which is a qualifying double-step by the *upper*
side — `gen_moves_for_one_side` offers an en-passant move *to the upper
side itself*, not only to the opposing side as the claim states. -/
theorem C6_counterexample_same_side_ep :
    Elysia.c6Move1 ∈ Elysia.gen_moves_for_one_side Elysia.resetBoard Elysia.Side.down ∧
    Elysia.c6Move2 ∈ Elysia.gen_moves_for_one_side Elysia.c6Board1 Elysia.Side.down ∧
    Elysia.c6Move3 ∈ Elysia.gen_moves_for_one_side Elysia.c6Board2 Elysia.Side.down ∧
    Elysia.c6Move4 ∈ Elysia.gen_moves_for_one_side Elysia.c6Board3 Elysia.Side.down ∧
    Elysia.c6Move5 ∈ Elysia.gen_moves_for_one_side Elysia.c6Board4 Elysia.Side.upper ∧
    Elysia.piece_side (Elysia.c6Board4.getP Elysia.c6Move5.fromPos) = Elysia.Side.upper ∧
    (⟨⟨5, 4⟩, ⟨6, 5⟩, Elysia.MoveType.en_passant, Elysia.P_EO⟩ : Elysia.Move) ∈
      Elysia.gen_moves_for_one_side Elysia.c6Board5 Elysia.Side.upper := by
  decide

namespace Elysia

/-! ### Inversion lemmas for the move generator -/

theorem piece_side_P_EE : piece_side P_EE = Side.extra := by decide

theorem ne_EO_of_side_ne_extra {p : Piece} (h : piece_side p ≠ Side.extra) : p ≠ P_EO := by
  intro hc
  subst hc
  exact h (by decide)

/-- What membership in the moves appended by `try_add_possible_move`
implies. -/
theorem mem_try_add {b : Board} {f t : Pos} {mv : Move}
    (h : mv ∈ (try_add_possible_move b f t).1) :
    mv = ⟨f, t, .normal, P_EO⟩ ∧ b.getP t ≠ P_EO ∧
      (b.getP t = P_EE ∨ piece_side (b.getP t) ≠ piece_side (b.getP f)) := by
  unfold try_add_possible_move at h
  dsimp only at h
  split_ifs at h with h1 h2 h3
  · simp at h
  · rw [List.mem_singleton] at h
    exact ⟨h, fun hc => h1 (by rw [hc] at h2; exact absurd h2 (by decide)), Or.inl h2⟩
  · rw [List.mem_singleton] at h
    exact ⟨h, h1, Or.inr (fun hc => h3 hc.symm)⟩
  · simp at h

theorem try_add_cont {b : Board} {f t : Pos}
    (h : (try_add_possible_move b f t).2 = true) : b.getP t = P_EE := by
  unfold try_add_possible_move at h
  dsimp only at h
  split_ifs at h with h1 h2 h3
  exact h2

/-- The playable square range. -/
abbrev interiorPos (p : Pos) : Prop :=
  2 ≤ p.row ∧ p.row ≤ 9 ∧ 2 ≤ p.col ∧ p.col ≤ 9

/-- Decidable form of the claim hypothesis "border cells hold the off-board
sentinel". -/
abbrev borderOkCheck (b : Board) : Prop :=
  ∀ r c : Fin 12,
    ¬(2 ≤ (r : Int) ∧ (r : Int) ≤ 9 ∧ 2 ≤ (c : Int) ∧ (c : Int) ≤ 9) →
      b.get (r : Int) (c : Int) = P_EO

/-- On a bordered board, a grid cell that does not read the off-board
sentinel is in the playable range. -/
theorem interior_of_get_ne_EO {b : Board} (hb : borderOkCheck b) {r c : Int}
    (h0r : 0 ≤ r) (h1r : r ≤ 11) (h0c : 0 ≤ c) (h1c : c ≤ 11)
    (hne : b.get r c ≠ P_EO) : 2 ≤ r ∧ r ≤ 9 ∧ 2 ≤ c ∧ c ≤ 9 := by
  by_contra hcon
  refine hne ?_
  have hfr : ((⟨r.toNat, by omega⟩ : Fin 12) : Int) = r := by
    show ((r.toNat : Nat) : Int) = r
    omega
  have hfc : ((⟨c.toNat, by omega⟩ : Fin 12) : Int) = c := by
    show ((c.toNat : Nat) : Int) = c
    omega
  have := hb ⟨r.toNat, by omega⟩ ⟨c.toNat, by omega⟩
  rw [hfr, hfc] at this
  exact this hcon

/-- Ray safety: under an intact border, every move a ray loop emits goes
from `f` to a playable square that is empty or enemy-occupied. -/
theorem mem_gen_ray_safe {b : Board} (hb : borderOkCheck b) {f : Pos} {dr dc : Int}
    (hdr0 : -1 ≤ dr) (hdr1 : dr ≤ 1) (hdc0 : -1 ≤ dc) (hdc1 : dc ≤ 1) :
    ∀ (fuel : Nat) (p : Pos), 0 ≤ p.row → p.row ≤ 11 → 0 ≤ p.col → p.col ≤ 11 →
      ∀ mv ∈ gen_ray b f dr dc fuel p,
        mv.fromPos = f ∧ mv.moveType = MoveType.normal ∧ interiorPos mv.toPos ∧
          b.getP mv.toPos ≠ P_EO ∧
          (b.getP mv.toPos = P_EE ∨
            piece_side (b.getP mv.toPos) ≠ piece_side (b.getP f)) := by
  intro fuel
  induction fuel with
  | zero =>
    intro p _ _ _ _ mv hmv
    simp [gen_ray] at hmv
  | succ n ih =>
    intro p h0r h1r h0c h1c mv hmv
    rw [gen_ray] at hmv
    have hstep : ∀ hm : mv ∈ (try_add_possible_move b f p).1,
        mv.fromPos = f ∧ mv.moveType = MoveType.normal ∧ interiorPos mv.toPos ∧
          b.getP mv.toPos ≠ P_EO ∧
          (b.getP mv.toPos = P_EE ∨
            piece_side (b.getP mv.toPos) ≠ piece_side (b.getP f)) := by
      intro hm
      obtain ⟨he, hne, hor⟩ := mem_try_add hm
      subst he
      exact ⟨rfl, rfl, interior_of_get_ne_EO hb h0r h1r h0c h1c hne, hne, hor⟩
    split at hmv
    · rename_i hcont
      rw [List.mem_append] at hmv
      rcases hmv with hm | hm
      · exact hstep hm
      · have hEE : b.getP p = P_EE := try_add_cont hcont
        have hint : 2 ≤ p.row ∧ p.row ≤ 9 ∧ 2 ≤ p.col ∧ p.col ≤ 9 :=
          interior_of_get_ne_EO hb h0r h1r h0c h1c (by rw [show b.get p.row p.col = b.getP p from rfl, hEE]; decide)
        exact ih ⟨p.row + dr, p.col + dc⟩ (by dsimp only; omega) (by dsimp only; omega)
          (by dsimp only; omega) (by dsimp only; omega) mv hm
    · exact hstep hmv

theorem mem_gen_crossing_safe {b : Board} (hb : borderOkCheck b) {f : Pos}
    (hf : interiorPos f) :
    ∀ mv ∈ gen_crossing b f,
      mv.fromPos = f ∧ mv.moveType = MoveType.normal ∧ interiorPos mv.toPos ∧
        b.getP mv.toPos ≠ P_EO ∧
        (b.getP mv.toPos = P_EE ∨
          piece_side (b.getP mv.toPos) ≠ piece_side (b.getP f)) := by
  obtain ⟨hf1, hf2, hf3, hf4⟩ := hf
  intro mv hmv
  unfold gen_crossing at hmv
  simp only [List.mem_append] at hmv
  rcases hmv with ((hm | hm) | hm) | hm
  · exact mem_gen_ray_safe hb (by omega) (by omega) (by omega) (by omega) _ _
      (by dsimp only; omega) (by dsimp only; omega) (by dsimp only; omega)
      (by dsimp only; omega) mv hm
  · exact mem_gen_ray_safe hb (by omega) (by omega) (by omega) (by omega) _ _
      (by dsimp only; omega) (by dsimp only; omega) (by dsimp only; omega)
      (by dsimp only; omega) mv hm
  · exact mem_gen_ray_safe hb (by omega) (by omega) (by omega) (by omega) _ _
      (by dsimp only; omega) (by dsimp only; omega) (by dsimp only; omega)
      (by dsimp only; omega) mv hm
  · exact mem_gen_ray_safe hb (by omega) (by omega) (by omega) (by omega) _ _
      (by dsimp only; omega) (by dsimp only; omega) (by dsimp only; omega)
      (by dsimp only; omega) mv hm

theorem mem_gen_diagonal_safe {b : Board} (hb : borderOkCheck b) {f : Pos}
    (hf : interiorPos f) :
    ∀ mv ∈ gen_diagonal b f,
      mv.fromPos = f ∧ mv.moveType = MoveType.normal ∧ interiorPos mv.toPos ∧
        b.getP mv.toPos ≠ P_EO ∧
        (b.getP mv.toPos = P_EE ∨
          piece_side (b.getP mv.toPos) ≠ piece_side (b.getP f)) := by
  obtain ⟨hf1, hf2, hf3, hf4⟩ := hf
  intro mv hmv
  unfold gen_diagonal at hmv
  simp only [List.mem_append] at hmv
  rcases hmv with ((hm | hm) | hm) | hm
  · exact mem_gen_ray_safe hb (by omega) (by omega) (by omega) (by omega) _ _
      (by dsimp only; omega) (by dsimp only; omega) (by dsimp only; omega)
      (by dsimp only; omega) mv hm
  · exact mem_gen_ray_safe hb (by omega) (by omega) (by omega) (by omega) _ _
      (by dsimp only; omega) (by dsimp only; omega) (by dsimp only; omega)
      (by dsimp only; omega) mv hm
  · exact mem_gen_ray_safe hb (by omega) (by omega) (by omega) (by omega) _ _
      (by dsimp only; omega) (by dsimp only; omega) (by dsimp only; omega)
      (by dsimp only; omega) mv hm
  · exact mem_gen_ray_safe hb (by omega) (by omega) (by omega) (by omega) _ _
      (by dsimp only; omega) (by dsimp only; omega) (by dsimp only; omega)
      (by dsimp only; omega) mv hm

theorem mem_pawn_add {s : Side} {f t : Pos} {cp : Bool} {mv : Move}
    (h : mv ∈ pawn_add_and_check_promote s f t cp) :
    mv.fromPos = f ∧ mv.toPos = t ∧
      (mv.moveType = MoveType.pawn_move_and_promote ∨ mv.moveType = MoveType.normal) := by
  unfold pawn_add_and_check_promote at h
  split at h
  · simp only [List.mem_cons, List.not_mem_nil, or_false] at h
    rcases h with h | h | h | h <;> subst h <;> exact ⟨rfl, rfl, Or.inl rfl⟩
  · rw [List.mem_singleton] at h
    subst h
    exact ⟨rfl, rfl, Or.inr rfl⟩

/-- Full inventory of what `pawn_steps_upper` can emit. -/
theorem mem_pawn_steps_upper {b : Board} {f : Pos} {mv : Move}
    (h : mv ∈ pawn_steps_upper b f) :
    (mv.moveType = MoveType.en_passant ∧ b.has_chance_to_do_en_passant = true) ∨
    (mv.moveType = MoveType.pawn_2_steps ∧ mv.toPos = ⟨f.row + 2, f.col⟩ ∧
      b.get (f.row + 2) f.col = P_EE) ∨
    ((mv.moveType = MoveType.pawn_move_and_promote ∨ mv.moveType = MoveType.normal) ∧
      mv.fromPos = f ∧
      ((mv.toPos = ⟨f.row + 1, f.col⟩ ∧ b.get (f.row + 1) f.col = P_EE) ∨
       ((mv.toPos = ⟨f.row + 1, f.col + 1⟩ ∨ mv.toPos = ⟨f.row + 1, f.col - 1⟩) ∧
         piece_side (b.getP mv.toPos) ≠ Side.extra ∧
         piece_side (b.getP mv.toPos) ≠ piece_side (b.getP f)))) := by
  unfold pawn_steps_upper at h
  simp only [List.mem_append] at h
  rcases h with (hep | hfwd) | hcap
  · left
    split_ifs at hep with h1 h2
    · rw [List.mem_singleton] at hep
      subst hep
      exact ⟨rfl, h1⟩
    · simp at hep
    · simp at hep
  · split_ifs at hfwd with h1 h2
    · rw [List.mem_append] at hfwd
      rcases hfwd with h2s | hprom
      · rw [List.mem_singleton] at h2s
        subst h2s
        exact Or.inr (Or.inl ⟨rfl, rfl, h2.2⟩)
      · obtain ⟨hf, ht, hty⟩ := mem_pawn_add hprom
        exact Or.inr (Or.inr ⟨hty, hf, Or.inl ⟨ht, h1⟩⟩)
    · obtain ⟨hf, ht, hty⟩ := mem_pawn_add hfwd
      exact Or.inr (Or.inr ⟨hty, hf, Or.inl ⟨ht, h1⟩⟩)
    · simp at hfwd
  · rw [List.mem_flatMap] at hcap
    obtain ⟨c, hc, hm⟩ := hcap
    simp only [List.mem_cons, List.mem_singleton, List.not_mem_nil, or_false] at hc
    split_ifs at hm with hcond
    · obtain ⟨hf, ht, hty⟩ := mem_pawn_add hm
      refine Or.inr (Or.inr ⟨hty, hf, Or.inr ⟨?_, ?_, ?_⟩⟩)
      · rcases hc with hc | hc <;> subst hc
        · exact Or.inl ht
        · exact Or.inr ht
      · rw [ht]
        exact hcond.1
      · rw [ht]
        exact hcond.2
    · simp at hm

/-- Full inventory of what `pawn_steps_down` can emit. -/
theorem mem_pawn_steps_down {b : Board} {f : Pos} {mv : Move}
    (h : mv ∈ pawn_steps_down b f) :
    (mv.moveType = MoveType.en_passant ∧ b.has_chance_to_do_en_passant = true) ∨
    (mv.moveType = MoveType.pawn_2_steps ∧ mv.toPos = ⟨f.row - 2, f.col⟩ ∧
      b.get (f.row - 2) f.col = P_EE) ∨
    ((mv.moveType = MoveType.pawn_move_and_promote ∨ mv.moveType = MoveType.normal) ∧
      mv.fromPos = f ∧
      ((mv.toPos = ⟨f.row - 1, f.col⟩ ∧ b.get (f.row - 1) f.col = P_EE) ∨
       ((mv.toPos = ⟨f.row - 1, f.col + 1⟩ ∨ mv.toPos = ⟨f.row - 1, f.col - 1⟩) ∧
         piece_side (b.getP mv.toPos) ≠ Side.extra ∧
         piece_side (b.getP mv.toPos) ≠ piece_side (b.getP f)))) := by
  unfold pawn_steps_down at h
  simp only [List.mem_append] at h
  rcases h with (hep | hfwd) | hcap
  · left
    split_ifs at hep with h1 h2
    · rw [List.mem_singleton] at hep
      subst hep
      exact ⟨rfl, h1⟩
    · simp at hep
    · simp at hep
  · split_ifs at hfwd with h1 h2
    · rw [List.mem_append] at hfwd
      rcases hfwd with h2s | hprom
      · rw [List.mem_singleton] at h2s
        subst h2s
        exact Or.inr (Or.inl ⟨rfl, rfl, h2.2⟩)
      · obtain ⟨hf, ht, hty⟩ := mem_pawn_add hprom
        exact Or.inr (Or.inr ⟨hty, hf, Or.inl ⟨ht, h1⟩⟩)
    · obtain ⟨hf, ht, hty⟩ := mem_pawn_add hfwd
      exact Or.inr (Or.inr ⟨hty, hf, Or.inl ⟨ht, h1⟩⟩)
    · simp at hfwd
  · rw [List.mem_flatMap] at hcap
    obtain ⟨c, hc, hm⟩ := hcap
    simp only [List.mem_cons, List.mem_singleton, List.not_mem_nil, or_false] at hc
    split_ifs at hm with hcond
    · obtain ⟨hf, ht, hty⟩ := mem_pawn_add hm
      refine Or.inr (Or.inr ⟨hty, hf, Or.inr ⟨?_, ?_, ?_⟩⟩)
      · rcases hc with hc | hc <;> subst hc
        · exact Or.inl ht
        · exact Or.inr ht
      · rw [ht]
        exact hcond.1
      · rw [ht]
        exact hcond.2
    · simp at hm

/-- What `knight_steps` can emit: normal moves to one of the eight knight
offsets, empty or enemy, never off-board. -/
theorem mem_knight_steps {b : Board} {f : Pos} {mv : Move}
    (h : mv ∈ knight_steps b f) :
    mv.fromPos = f ∧ mv.moveType = MoveType.normal ∧
      (f.row - 2 ≤ mv.toPos.row ∧ mv.toPos.row ≤ f.row + 2 ∧
       f.col - 2 ≤ mv.toPos.col ∧ mv.toPos.col ≤ f.col + 2) ∧
      b.getP mv.toPos ≠ P_EO ∧
      (b.getP mv.toPos = P_EE ∨
        piece_side (b.getP mv.toPos) ≠ piece_side (b.getP f)) := by
  unfold knight_steps at h
  simp only [List.mem_append] at h
  rcases h with ((((((hm | hm) | hm) | hm) | hm) | hm) | hm) | hm <;>
    · obtain ⟨he, hne, hor⟩ := mem_try_add hm
      subst he
      exact ⟨rfl, rfl, by dsimp only; omega, hne, hor⟩

/-- What `king_steps` can emit: normal moves to one of the eight adjacent
squares (empty or enemy, never off-board), or a castling move guarded by
the corresponding `can_*_castle` query. -/
theorem mem_king_steps {b : Board} {f : Pos} {mv : Move}
    (h : mv ∈ king_steps b f) :
    (mv.fromPos = f ∧ mv.moveType = MoveType.normal ∧
      (f.row - 1 ≤ mv.toPos.row ∧ mv.toPos.row ≤ f.row + 1 ∧
       f.col - 1 ≤ mv.toPos.col ∧ mv.toPos.col ≤ f.col + 1) ∧
      b.getP mv.toPos ≠ P_EO ∧
      (b.getP mv.toPos = P_EE ∨
        piece_side (b.getP mv.toPos) ≠ piece_side (b.getP f))) ∨
    (piece_side (b.getP f) = Side.upper ∧
      ((mv.moveType = MoveType.short_castling ∧ b.can_upper_short_castle = true) ∨
       (mv.moveType = MoveType.long_castling ∧ b.can_upper_long_castle = true))) ∨
    (piece_side (b.getP f) ≠ Side.upper ∧
      ((mv.moveType = MoveType.short_castling ∧ b.can_down_short_castle = true) ∨
       (mv.moveType = MoveType.long_castling ∧ b.can_down_long_castle = true))) := by
  unfold king_steps at h
  simp only [List.mem_append] at h
  rcases h with (((((((hm | hm) | hm) | hm) | hm) | hm) | hm) | hm) | hc
  all_goals try
    (obtain ⟨he, hne, hor⟩ := mem_try_add hm
     subst he
     exact Or.inl ⟨rfl, rfl, by dsimp only; omega, hne, hor⟩)
  · try dsimp only at hc
    split at hc
    · rename_i hs
      refine Or.inr (Or.inl ⟨hs, ?_⟩)
      rw [List.mem_append] at hc
      rcases hc with hc | hc <;> split_ifs at hc with hcan <;>
        simp only [List.mem_singleton, List.not_mem_nil] at hc
      · subst hc
        exact Or.inl ⟨rfl, hcan⟩
      · subst hc
        exact Or.inr ⟨rfl, hcan⟩
    · rename_i hs
      refine Or.inr (Or.inr ⟨hs, ?_⟩)
      rw [List.mem_append] at hc
      rcases hc with hc | hc <;> split_ifs at hc with hcan <;>
        simp only [List.mem_singleton, List.not_mem_nil] at hc
      · subst hc
        exact Or.inl ⟨rfl, hcan⟩
      · subst hc
        exact Or.inr ⟨rfl, hcan⟩

theorem interior_coords_bounds :
    ∀ rc ∈ interior_coords, 2 ≤ rc.1 ∧ rc.1 ≤ 9 ∧ 2 ≤ rc.2 ∧ rc.2 ≤ 9 := by
  decide

/-- Inversion for `gen_moves_for_one_side`: every generated move arises
from a playable square holding a piece of the requested side. -/
theorem mem_gen_inv {b : Board} {s : Side} {mv : Move}
    (h : mv ∈ gen_moves_for_one_side b s) :
    ∃ rc : Int × Int, (2 ≤ rc.1 ∧ rc.1 ≤ 9 ∧ 2 ≤ rc.2 ∧ rc.2 ≤ 9) ∧
      piece_side (b.get rc.1 rc.2) = s ∧
      mv ∈ piece_steps b (b.get rc.1 rc.2) ⟨rc.1, rc.2⟩ := by
  unfold gen_moves_for_one_side at h
  rw [List.mem_flatMap] at h
  obtain ⟨rc, hrc, hmv⟩ := h
  have hint := interior_coords_bounds rc hrc
  split_ifs at hmv with hside
  · exact ⟨rc, hint, hside, hmv⟩
  · simp at hmv

/-- Unfolding `can_upper_short_castle`: the three bytes it looks at are the
cells (2,7), (2,8), (2,9) next to the fixed king start square 30. -/
theorem can_upper_short_castle_spec {b : Board} (h : b.can_upper_short_castle = true) :
    b.get_upper_castle_flag = true ∧
      b.get 2 7 = P_EE ∧ b.get 2 8 = P_EE ∧ b.get 2 9 = P_UR := by
  unfold Board.can_upper_short_castle at h
  simp only [Bool.and_eq_true, beq_iff_eq] at h
  exact ⟨h.1, h.2.1.1, h.2.1.2, h.2.2⟩

theorem can_upper_long_castle_spec {b : Board} (h : b.can_upper_long_castle = true) :
    b.get_upper_castle_flag = true ∧
      b.get 2 2 = P_UR ∧ b.get 2 3 = P_EE ∧ b.get 2 4 = P_EE ∧ b.get 2 5 = P_EE := by
  unfold Board.can_upper_long_castle at h
  simp only [Bool.and_eq_true, beq_iff_eq] at h
  exact ⟨h.1, h.2.1.1.1, h.2.1.1.2, h.2.1.2, h.2.2⟩

theorem can_down_short_castle_spec {b : Board} (h : b.can_down_short_castle = true) :
    b.get_down_castle_flag = true ∧
      b.get 9 7 = P_EE ∧ b.get 9 8 = P_EE ∧ b.get 9 9 = P_DR := by
  unfold Board.can_down_short_castle at h
  simp only [Bool.and_eq_true, beq_iff_eq] at h
  exact ⟨h.1, h.2.1.1, h.2.1.2, h.2.2⟩

theorem can_down_long_castle_spec {b : Board} (h : b.can_down_long_castle = true) :
    b.get_down_castle_flag = true ∧
      b.get 9 2 = P_DR ∧ b.get 9 3 = P_EE ∧ b.get 9 4 = P_EE ∧ b.get 9 5 = P_EE := by
  unfold Board.can_down_long_castle at h
  simp only [Bool.and_eq_true, beq_iff_eq] at h
  exact ⟨h.1, h.2.1.1.1, h.2.1.1.2, h.2.1.2, h.2.2⟩

/-- Every ray move is a plain `normal` move. -/
theorem mem_gen_ray_normal {b : Board} {f : Pos} {dr dc : Int} :
    ∀ (fuel : Nat) (p : Pos), ∀ mv ∈ gen_ray b f dr dc fuel p,
      mv.moveType = MoveType.normal := by
  intro fuel
  induction fuel with
  | zero =>
    intro p mv hmv
    simp [gen_ray] at hmv
  | succ n ih =>
    intro p mv hmv
    rw [gen_ray] at hmv
    split at hmv
    · rw [List.mem_append] at hmv
      rcases hmv with hm | hm
      · rw [(mem_try_add hm).1]
      · exact ih _ mv hm
    · rw [(mem_try_add hmv).1]

theorem mem_gen_crossing_normal {b : Board} {f : Pos} :
    ∀ mv ∈ gen_crossing b f, mv.moveType = MoveType.normal := by
  intro mv hmv
  unfold gen_crossing at hmv
  simp only [List.mem_append] at hmv
  rcases hmv with ((hm | hm) | hm) | hm <;> exact mem_gen_ray_normal _ _ mv hm

theorem mem_gen_diagonal_normal {b : Board} {f : Pos} :
    ∀ mv ∈ gen_diagonal b f, mv.moveType = MoveType.normal := by
  intro mv hmv
  unfold gen_diagonal at hmv
  simp only [List.mem_append] at hmv
  rcases hmv with ((hm | hm) | hm) | hm <;> exact mem_gen_ray_normal _ _ mv hm

/-- The pawn generator only emits these four move kinds. -/
theorem mem_pawn_steps_types {b : Board} {f : Pos} {mv : Move}
    (h : mv ∈ pawn_steps b f) :
    mv.moveType = MoveType.en_passant ∨ mv.moveType = MoveType.pawn_2_steps ∨
      mv.moveType = MoveType.pawn_move_and_promote ∨ mv.moveType = MoveType.normal := by
  unfold pawn_steps at h
  split at h
  · rcases mem_pawn_steps_upper h with ⟨h1, _⟩ | ⟨h1, _⟩ | ⟨h1, _⟩
    · exact Or.inl h1
    · exact Or.inr (Or.inl h1)
    · exact Or.inr (Or.inr h1)
  · rcases mem_pawn_steps_down h with ⟨h1, _⟩ | ⟨h1, _⟩ | ⟨h1, _⟩
    · exact Or.inl h1
    · exact Or.inr (Or.inl h1)
    · exact Or.inr (Or.inr h1)

/-- Castling moves come only from the king generator. -/
theorem piece_steps_castle_king {b : Board} {p : Piece} {f : Pos} {mv : Move}
    (h : mv ∈ piece_steps b p f)
    (hc : mv.moveType = MoveType.short_castling ∨ mv.moveType = MoveType.long_castling) :
    mv ∈ king_steps b f := by
  have hnn : mv.moveType ≠ MoveType.normal := by
    rcases hc with hcc | hcc <;> rw [hcc] <;> simp
  unfold piece_steps at h
  split at h
  · rcases mem_pawn_steps_types h with h1 | h1 | h1 | h1 <;>
      rcases hc with hcc | hcc <;> rw [hcc] at h1 <;> simp at h1
  · unfold rook_steps at h
    exact absurd (mem_gen_crossing_normal mv h) hnn
  · exact absurd (mem_knight_steps h).2.1 hnn
  · unfold bishop_steps at h
    exact absurd (mem_gen_diagonal_normal mv h) hnn
  · unfold queen_steps at h
    rw [List.mem_append] at h
    rcases h with h | h
    · exact absurd (mem_gen_crossing_normal mv h) hnn
    · exact absurd (mem_gen_diagonal_normal mv h) hnn
  · exact h
  · simp at h

end Elysia

namespace Elysia

/-- A position where upper short castling is genuinely available from the
start square: the initial board with the f1/g1-equivalent squares (2,7),
(2,8) cleared. -/
def c7WitnessBoard : Board := boardOfString
  ("############" ++ "############" ++ "##RNBQK..R##" ++ "##PPPPPPPP##" ++
   "##........##" ++ "##........##" ++ "##........##" ++ "##........##" ++
   "##pppppppp##" ++ "##rnbqkbnr##" ++ "############" ++ "############" ++ "1100")

def c7WitnessMove : Move := ⟨⟨2, 6⟩, ⟨2, 8⟩, .short_castling, P_EO⟩

end Elysia

/-- C7 (amended): whenever a castling move for a side appears in the
generated move list, that side's castling-allowed flag is set, the squares
strictly between the side's FIXED INITIAL king square and the expected
rook origin are empty, and the side's rook occupies that origin — the
check is anchored at the fixed start square (byte 30 resp. 114), not at
the move's from-square. -/
theorem C7_castle_conditions_at_start_square (b : Elysia.Board) (s : Elysia.Side)
    (mv : Elysia.Move)
    (hmem : mv ∈ Elysia.gen_moves_for_one_side b s)
    (hc : mv.moveType = Elysia.MoveType.short_castling ∨
      mv.moveType = Elysia.MoveType.long_castling) :
    (s = Elysia.Side.upper →
      b.get_upper_castle_flag = true ∧
      (mv.moveType = Elysia.MoveType.short_castling →
        b.get 2 7 = Elysia.P_EE ∧ b.get 2 8 = Elysia.P_EE ∧ b.get 2 9 = Elysia.P_UR) ∧
      (mv.moveType = Elysia.MoveType.long_castling →
        b.get 2 2 = Elysia.P_UR ∧ b.get 2 3 = Elysia.P_EE ∧ b.get 2 4 = Elysia.P_EE ∧
          b.get 2 5 = Elysia.P_EE)) ∧
    (s = Elysia.Side.down →
      b.get_down_castle_flag = true ∧
      (mv.moveType = Elysia.MoveType.short_castling →
        b.get 9 7 = Elysia.P_EE ∧ b.get 9 8 = Elysia.P_EE ∧ b.get 9 9 = Elysia.P_DR) ∧
      (mv.moveType = Elysia.MoveType.long_castling →
        b.get 9 2 = Elysia.P_DR ∧ b.get 9 3 = Elysia.P_EE ∧ b.get 9 4 = Elysia.P_EE ∧
          b.get 9 5 = Elysia.P_EE)) := by
  obtain ⟨rc, hint, hside, hsteps⟩ := Elysia.mem_gen_inv hmem
  have hking := Elysia.piece_steps_castle_king hsteps hc
  have hgetfp : (b.getP ⟨rc.1, rc.2⟩) = b.get rc.1 rc.2 := rfl
  rcases Elysia.mem_king_steps hking with hnorm | ⟨hup, hcase⟩ | ⟨hnup, hcase⟩
  · exfalso
    rcases hc with hcc | hcc <;> rw [hcc] at hnorm <;> simp at hnorm
  · -- the piece generating the move is an upper piece, so s = upper
    rw [hgetfp, hside] at hup
    constructor
    · intro _
      rcases hcase with ⟨hty, hcan⟩ | ⟨hty, hcan⟩
      · obtain ⟨hf, h1, h2, h3⟩ := Elysia.can_upper_short_castle_spec hcan
        refine ⟨hf, fun _ => ⟨h1, h2, h3⟩, fun hl => ?_⟩
        rw [hty] at hl
        simp at hl
      · obtain ⟨hf, h1, h2, h3, h4⟩ := Elysia.can_upper_long_castle_spec hcan
        refine ⟨hf, fun hs => ?_, fun _ => ⟨h1, h2, h3, h4⟩⟩
        rw [hty] at hs
        simp at hs
    · intro hdown
      rw [hdown] at hup
      simp at hup
  · rw [hgetfp, hside] at hnup
    constructor
    · intro hupper
      rw [hupper] at hnup
      simp at hnup
    · intro _
      rcases hcase with ⟨hty, hcan⟩ | ⟨hty, hcan⟩
      · obtain ⟨hf, h1, h2, h3⟩ := Elysia.can_down_short_castle_spec hcan
        refine ⟨hf, fun _ => ⟨h1, h2, h3⟩, fun hl => ?_⟩
        rw [hty] at hl
        simp at hl
      · obtain ⟨hf, h1, h2, h3, h4⟩ := Elysia.can_down_long_castle_spec hcan
        refine ⟨hf, fun hs => ?_, fun _ => ⟨h1, h2, h3, h4⟩⟩
        rw [hty] at hs
        simp at hs

theorem C7_castle_conditions_at_start_square_witness :
    (Elysia.Side.upper = Elysia.Side.upper →
      Elysia.c7WitnessBoard.get_upper_castle_flag = true ∧
      (Elysia.c7WitnessMove.moveType = Elysia.MoveType.short_castling →
        Elysia.c7WitnessBoard.get 2 7 = Elysia.P_EE ∧
          Elysia.c7WitnessBoard.get 2 8 = Elysia.P_EE ∧
          Elysia.c7WitnessBoard.get 2 9 = Elysia.P_UR) ∧
      (Elysia.c7WitnessMove.moveType = Elysia.MoveType.long_castling →
        Elysia.c7WitnessBoard.get 2 2 = Elysia.P_UR ∧
          Elysia.c7WitnessBoard.get 2 3 = Elysia.P_EE ∧
          Elysia.c7WitnessBoard.get 2 4 = Elysia.P_EE ∧
          Elysia.c7WitnessBoard.get 2 5 = Elysia.P_EE)) ∧
    (Elysia.Side.upper = Elysia.Side.down →
      Elysia.c7WitnessBoard.get_down_castle_flag = true ∧
      (Elysia.c7WitnessMove.moveType = Elysia.MoveType.short_castling →
        Elysia.c7WitnessBoard.get 9 7 = Elysia.P_EE ∧
          Elysia.c7WitnessBoard.get 9 8 = Elysia.P_EE ∧
          Elysia.c7WitnessBoard.get 9 9 = Elysia.P_DR) ∧
      (Elysia.c7WitnessMove.moveType = Elysia.MoveType.long_castling →
        Elysia.c7WitnessBoard.get 9 2 = Elysia.P_DR ∧
          Elysia.c7WitnessBoard.get 9 3 = Elysia.P_EE ∧
          Elysia.c7WitnessBoard.get 9 4 = Elysia.P_EE ∧
          Elysia.c7WitnessBoard.get 9 5 = Elysia.P_EE)) :=
  C7_castle_conditions_at_start_square Elysia.c7WitnessBoard Elysia.Side.upper
    Elysia.c7WitnessMove (by decide) (Or.inl rfl)

/-- C7 (counterexample): `c7Board` has the castle flag set and `..R` in the
bytes adjacent to the fixed initial king square, so a short-castling move
is generated from the king's actual square (5,5) — but the square (5,6)
strictly between the king and its expected rook origin is occupied by a
friendly pawn, and no rook sits at that origin (5,8): the claim's
conditions, read at the king's square, are violated. -/
theorem C7_counterexample_displaced_king :
    Elysia.c7CastleMove ∈ Elysia.gen_moves_for_one_side Elysia.c7Board Elysia.Side.upper ∧
    Elysia.c7Board.getP Elysia.c7CastleMove.fromPos = Elysia.P_UK ∧
    Elysia.c7Board.get 5 6 ≠ Elysia.P_EE ∧
    Elysia.c7Board.get 5 8 ≠ Elysia.P_UR := by
  decide

/-- C4 (amended): every generated move of kind normal, pawn-double-step or
promotion targets a playable square not occupied by the moving side (the
claim's full statement fails for generated en-passant and castling moves,
see the counterexample). -/
theorem C4_generated_moves_destination_safe (b : Elysia.Board) (s : Elysia.Side)
    (mv : Elysia.Move) (hb : Elysia.borderOkCheck b) (hs : s ≠ Elysia.Side.extra)
    (hmem : mv ∈ Elysia.gen_moves_for_one_side b s)
    (hk : mv.moveType = Elysia.MoveType.normal ∨
      mv.moveType = Elysia.MoveType.pawn_2_steps ∨
      mv.moveType = Elysia.MoveType.pawn_move_and_promote) :
    Elysia.interiorPos mv.toPos ∧ b.getP mv.toPos ≠ Elysia.P_EO ∧
      Elysia.piece_side (b.getP mv.toPos) ≠ s := by
  obtain ⟨rc, hint, hside, hsteps⟩ := Elysia.mem_gen_inv hmem
  have hgf : b.getP ⟨rc.1, rc.2⟩ = b.get rc.1 rc.2 := rfl
  have hintf : Elysia.interiorPos (⟨rc.1, rc.2⟩ : Elysia.Pos) := by
    dsimp only [Elysia.interiorPos]
    omega
  -- destination facts for the empty-square case
  have hEEcase : ∀ t : Elysia.Pos, b.getP t = Elysia.P_EE →
      Elysia.piece_side (b.getP t) ≠ s := by
    intro t ht
    rw [ht, Elysia.piece_side_P_EE]
    exact fun hc => hs hc.symm
  -- destination facts for the empty-or-enemy disjunction of try_add
  have hrel : ∀ t : Elysia.Pos,
      (b.getP t = Elysia.P_EE ∨
        Elysia.piece_side (b.getP t) ≠ Elysia.piece_side (b.getP ⟨rc.1, rc.2⟩)) →
      Elysia.piece_side (b.getP t) ≠ s := by
    intro t hor
    rcases hor with hor | hor
    · exact hEEcase t hor
    · rw [hgf, hside] at hor
      exact hor
  unfold Elysia.piece_steps at hsteps
  split at hsteps
  · -- pawn
    unfold Elysia.pawn_steps at hsteps
    have handle :
        (mv.moveType = Elysia.MoveType.en_passant ∧
          b.has_chance_to_do_en_passant = true) ∨
        (mv.moveType = Elysia.MoveType.pawn_2_steps ∧
          mv.toPos = ⟨rc.1 + 2, rc.2⟩ ∧ b.get (rc.1 + 2) rc.2 = Elysia.P_EE) ∨
        (mv.moveType = Elysia.MoveType.pawn_2_steps ∧
          mv.toPos = ⟨rc.1 - 2, rc.2⟩ ∧ b.get (rc.1 - 2) rc.2 = Elysia.P_EE) ∨
        ((mv.toPos = (⟨rc.1 + 1, rc.2⟩ : Elysia.Pos) ∨
            mv.toPos = (⟨rc.1 - 1, rc.2⟩ : Elysia.Pos)) ∧
          b.getP mv.toPos = Elysia.P_EE) ∨
        ((mv.toPos.row = rc.1 + 1 ∨ mv.toPos.row = rc.1 - 1) ∧
          (mv.toPos.col = rc.2 + 1 ∨ mv.toPos.col = rc.2 - 1) ∧
          Elysia.piece_side (b.getP mv.toPos) ≠ Elysia.Side.extra ∧
          Elysia.piece_side (b.getP mv.toPos) ≠
            Elysia.piece_side (b.getP ⟨rc.1, rc.2⟩)) := by
      split at hsteps
      · rcases Elysia.mem_pawn_steps_upper hsteps with hx | ⟨h1, h2, h3⟩ | ⟨hty, hf, hx⟩
        · exact Or.inl hx
        · exact Or.inr (Or.inl ⟨h1, h2, h3⟩)
        · rcases hx with ⟨ht, hee⟩ | ⟨htor, hext, hrel2⟩
          · exact Or.inr (Or.inr (Or.inr (Or.inl ⟨Or.inl ht, by rw [ht]; exact hee⟩)))
          · refine Or.inr (Or.inr (Or.inr (Or.inr ⟨?_, ?_, hext, hrel2⟩)))
            · rcases htor with ht | ht <;> rw [ht] <;> exact Or.inl rfl
            · rcases htor with ht | ht <;> rw [ht]
              · exact Or.inl rfl
              · exact Or.inr rfl
      · rcases Elysia.mem_pawn_steps_down hsteps with hx | ⟨h1, h2, h3⟩ | ⟨hty, hf, hx⟩
        · exact Or.inl hx
        · exact Or.inr (Or.inr (Or.inl ⟨h1, h2, h3⟩))
        · rcases hx with ⟨ht, hee⟩ | ⟨htor, hext, hrel2⟩
          · exact Or.inr (Or.inr (Or.inr (Or.inl ⟨Or.inr ht, by rw [ht]; exact hee⟩)))
          · refine Or.inr (Or.inr (Or.inr (Or.inr ⟨?_, ?_, hext, hrel2⟩)))
            · rcases htor with ht | ht <;> rw [ht] <;> exact Or.inr rfl
            · rcases htor with ht | ht <;> rw [ht]
              · exact Or.inl rfl
              · exact Or.inr rfl
    rcases handle with ⟨h1, _⟩ | ⟨h1, h2, h3⟩ | ⟨h1, h2, h3⟩ | ⟨htor, hee⟩ | ⟨hr, hc, hext, hrel2⟩
    · exfalso
      rcases hk with hkk | hkk | hkk <;> rw [hkk] at h1 <;> simp at h1
    · have hne2 : b.get (rc.1 + 2) rc.2 ≠ Elysia.P_EO := by
        rw [h3]
        decide
      have hi := Elysia.interior_of_get_ne_EO hb (by omega) (by omega) (by omega) (by omega) hne2
      have hne : b.getP mv.toPos ≠ Elysia.P_EO := by
        rw [h2]
        exact hne2
      refine ⟨?_, hne, ?_⟩
      · rw [h2]
        exact hi
      · apply hEEcase
        rw [h2]
        exact h3
    · have hne2 : b.get (rc.1 - 2) rc.2 ≠ Elysia.P_EO := by
        rw [h3]
        decide
      have hi := Elysia.interior_of_get_ne_EO hb (by omega) (by omega) (by omega) (by omega) hne2
      have hne : b.getP mv.toPos ≠ Elysia.P_EO := by
        rw [h2]
        exact hne2
      refine ⟨?_, hne, ?_⟩
      · rw [h2]
        exact hi
      · apply hEEcase
        rw [h2]
        exact h3
    · have hne : b.getP mv.toPos ≠ Elysia.P_EO := by
        rw [hee]
        decide
      have hbnd : (0 ≤ mv.toPos.row ∧ mv.toPos.row ≤ 11) ∧
          0 ≤ mv.toPos.col ∧ mv.toPos.col ≤ 11 := by
        rcases htor with ht | ht <;> rw [ht] <;> dsimp only <;> omega
      exact ⟨Elysia.interior_of_get_ne_EO hb hbnd.1.1 hbnd.1.2 hbnd.2.1 hbnd.2.2 hne,
        hne, hEEcase _ hee⟩
    · have hne : b.getP mv.toPos ≠ Elysia.P_EO := Elysia.ne_EO_of_side_ne_extra hext
      refine ⟨Elysia.interior_of_get_ne_EO hb (by omega) (by omega) (by omega) (by omega) hne,
        hne, ?_⟩
      rw [hgf, hside] at hrel2
      exact hrel2
  · -- rook
    unfold Elysia.rook_steps at hsteps
    obtain ⟨_, _, hin, hne, hor⟩ := Elysia.mem_gen_crossing_safe hb hintf mv hsteps
    exact ⟨hin, hne, hrel _ hor⟩
  · -- knight
    obtain ⟨_, _, hbnd, hne, hor⟩ := Elysia.mem_knight_steps hsteps
    refine ⟨Elysia.interior_of_get_ne_EO hb (by omega) (by omega) (by omega) (by omega) hne,
      hne, hrel _ hor⟩
  · -- bishop
    unfold Elysia.bishop_steps at hsteps
    obtain ⟨_, _, hin, hne, hor⟩ := Elysia.mem_gen_diagonal_safe hb hintf mv hsteps
    exact ⟨hin, hne, hrel _ hor⟩
  · -- queen
    unfold Elysia.queen_steps at hsteps
    rw [List.mem_append] at hsteps
    rcases hsteps with hknot | hknot
    · obtain ⟨_, _, hin, hne, hor⟩ := Elysia.mem_gen_crossing_safe hb hintf mv hknot
      exact ⟨hin, hne, hrel _ hor⟩
    · obtain ⟨_, _, hin, hne, hor⟩ := Elysia.mem_gen_diagonal_safe hb hintf mv hknot
      exact ⟨hin, hne, hrel _ hor⟩
  · -- king
    rcases Elysia.mem_king_steps hsteps with ⟨_, _, hbnd, hne, hor⟩ | ⟨_, hcase⟩ | ⟨_, hcase⟩
    · refine ⟨Elysia.interior_of_get_ne_EO hb (by omega) (by omega) (by omega) (by omega) hne,
        hne, hrel _ hor⟩
    all_goals
      exfalso
      rcases hcase with ⟨hty, _⟩ | ⟨hty, _⟩ <;>
        rcases hk with hkk | hkk | hkk <;> rw [hkk] at hty <;> simp at hty
  · simp at hsteps

/-- C4 witness data: the initial double-step of the down d-pawn on the
reset board. -/
def c4WitnessMove : Elysia.Move := ⟨⟨8, 4⟩, ⟨6, 4⟩, .pawn_2_steps, Elysia.P_EO⟩

theorem C4_generated_moves_destination_safe_witness :
    Elysia.interiorPos c4WitnessMove.toPos ∧
      Elysia.resetBoard.getP c4WitnessMove.toPos ≠ Elysia.P_EO ∧
      Elysia.piece_side (Elysia.resetBoard.getP c4WitnessMove.toPos) ≠ Elysia.Side.down :=
  C4_generated_moves_destination_safe Elysia.resetBoard Elysia.Side.down c4WitnessMove
    (by decide) (by decide) (by decide) (Or.inr (Or.inl rfl))

namespace Elysia

/-! ### Byte-level lemmas about the en-passant bytes 146/147 -/

theorem getD_set_ne {α : Type} (l : List α) (i j : Nat) (a d : α) (h : i ≠ j) :
    (l.set i a).getD j d = l.getD j d := by
  induction l generalizing i j with
  | nil => rfl
  | cons x xs ih =>
    cases i with
    | zero =>
      cases j with
      | zero => exact absurd rfl h
      | succ jj => rfl
    | succ ii =>
      cases j with
      | zero => rfl
      | succ jj => exact ih ii jj (by omega)

theorem getD_set_self {α : Type} (l : List α) (i : Nat) (a d : α) (h : i < l.length) :
    (l.set i a).getD i d = a := by
  induction l generalizing i with
  | nil => simp at h
  | cons x xs ih =>
    cases i with
    | zero => rfl
    | succ ii => exact ih ii (by simpa using h)

/-- A grid write at an index below 144 leaves any of the four tail bytes
unchanged. -/
theorem byte_set_low (b : Board) (r c : Int) (p : Piece) (k : Nat)
    (hk : 144 ≤ k) (hidx : r * 12 + c < 144) :
    (b.set r c p).data.getD k junkPiece = b.data.getD k junkPiece := by
  unfold Board.set
  dsimp only
  split
  · rename_i hin
    apply getD_set_ne
    simp only [width] at hin ⊢
    omega
  · rfl

theorem byte_setP_interior (b : Board) (pos : Pos) (p : Piece) (k : Nat)
    (hk : 144 ≤ k) (h : interiorPos pos) :
    (b.setP pos p).data.getD k junkPiece = b.data.getD k junkPiece := by
  unfold Board.setP
  apply byte_set_low
  · exact hk
  · obtain ⟨h1, h2, h3, h4⟩ := h
    omega

theorem byte146_set_upper_flag (b : Board) (fl : Bool) :
    (b.set_upper_castle_flag fl).data.getD 146 junkPiece = b.data.getD 146 junkPiece :=
  getD_set_ne _ _ _ _ _ (by decide)

theorem byte146_set_down_flag (b : Board) (fl : Bool) :
    (b.set_down_castle_flag fl).data.getD 146 junkPiece = b.data.getD 146 junkPiece :=
  getD_set_ne _ _ _ _ _ (by decide)

theorem byte146_ite (c : Prop) [Decidable c] (x y : Board) :
    (if c then x else y).data.getD 146 junkPiece =
      if c then x.data.getD 146 junkPiece else y.data.getD 146 junkPiece :=
  apply_ite (fun z : Board => z.data.getD 146 junkPiece) c x y

theorem byte146_reset (b : Board) (hlen : b.data.length = 148) :
    b.reset_en_passant_pos.data.getD 146 junkPiece = 48 := by
  unfold Board.reset_en_passant_pos Board.set_en_passant_pos
  dsimp only
  simp only [en_passant_row_pos, en_passant_col_pos]
  rw [getD_set_ne _ _ _ _ _ (by omega), getD_set_self]
  · norm_num
  · omega

/-- If the en-passant row byte reads `'0'`, there is no chance to do en
passant. -/
theorem hasChance_false_of_byte146 {b : Board}
    (h : b.data.getD 146 junkPiece = 48) :
    b.has_chance_to_do_en_passant = false := by
  unfold Board.has_chance_to_do_en_passant
  simp only [en_passant_row_pos, en_passant_col_pos]
  rw [h]
  simp

/-- Any non-invalid `move` whose squares are on the playable board and
whose kind is not pawn-double-step leaves no active en-passant target:
the target is cleared at the start and no other branch touches the
en-passant bytes. -/
theorem move_clears_ep (b : Board) (m : Move)
    (hinv : m.moveType ≠ MoveType.invalid)
    (h2s : m.moveType ≠ MoveType.pawn_2_steps)
    (hlen : b.data.length = 148)
    (hf : interiorPos m.fromPos) (ht : interiorPos m.toPos) :
    (b.move m).has_chance_to_do_en_passant = false := by
  obtain ⟨hf1, hf2, hf3, hf4⟩ := hf
  obtain ⟨ht1, ht2, ht3, ht4⟩ := ht
  apply hasChance_false_of_byte146
  have hlen0 : (Board.mk b.data (b.data :: b.history)).data.length = 148 := hlen
  rcases m with ⟨mf, mt, mty, mpp⟩
  dsimp only at hf1 hf2 hf3 hf4 ht1 ht2 ht3 ht4 hinv h2s ⊢
  cases mty
  case invalid => exact absurd rfl hinv
  case pawn_2_steps => exact absurd rfl h2s
  case pawn_move_and_promote =>
    unfold Board.move
    dsimp only
    rw [if_neg hinv,
      if_pos (show MoveType.pawn_move_and_promote = MoveType.pawn_move_and_promote from rfl)]
    rw [byte_setP_interior _ _ _ _ (by omega) ⟨hf1, hf2, hf3, hf4⟩,
      byte_setP_interior _ _ _ _ (by omega) ⟨ht1, ht2, ht3, ht4⟩,
      byte146_reset _ hlen0]
  case normal =>
    unfold Board.move
    dsimp only
    rw [if_neg hinv,
      if_neg (show MoveType.normal ≠ MoveType.pawn_move_and_promote by decide),
      if_neg (show MoveType.normal ≠ MoveType.long_castling by decide),
      if_neg (show MoveType.normal ≠ MoveType.short_castling by decide),
      if_neg (show MoveType.normal ≠ MoveType.en_passant by decide),
      if_neg (show MoveType.normal ≠ MoveType.pawn_2_steps by decide)]
    simp only [byte146_ite, byte146_set_upper_flag, byte146_set_down_flag, ite_self]
    rw [byte_setP_interior _ _ _ _ (by omega) ⟨hf1, hf2, hf3, hf4⟩,
      byte_setP_interior _ _ _ _ (by omega) ⟨ht1, ht2, ht3, ht4⟩,
      byte146_reset _ hlen0]
  case en_passant =>
    unfold Board.move
    dsimp only
    rw [if_neg hinv,
      if_neg (show MoveType.en_passant ≠ MoveType.pawn_move_and_promote by decide),
      if_neg (show MoveType.en_passant ≠ MoveType.long_castling by decide),
      if_neg (show MoveType.en_passant ≠ MoveType.short_castling by decide),
      if_pos (show MoveType.en_passant = MoveType.en_passant from rfl)]
    rw [byte_set_low _ _ _ _ _ (by omega) (by omega)]
    simp only [byte146_ite, byte146_set_upper_flag, byte146_set_down_flag, ite_self]
    rw [byte_setP_interior _ _ _ _ (by omega) ⟨hf1, hf2, hf3, hf4⟩,
      byte_setP_interior _ _ _ _ (by omega) ⟨ht1, ht2, ht3, ht4⟩,
      byte146_reset _ hlen0]
  case long_castling =>
    unfold Board.move
    dsimp only
    rw [if_neg hinv,
      if_neg (show MoveType.long_castling ≠ MoveType.pawn_move_and_promote by decide),
      if_pos (show MoveType.long_castling = MoveType.long_castling from rfl)]
    rw [byte_set_low _ _ _ _ _ (by omega) (by omega),
      byte_set_low _ _ _ _ _ (by omega) (by omega)]
    simp only [byte146_ite, byte146_set_upper_flag, byte146_set_down_flag, ite_self]
    rw [byte_setP_interior _ _ _ _ (by omega) ⟨hf1, hf2, hf3, hf4⟩,
      byte_setP_interior _ _ _ _ (by omega) ⟨ht1, ht2, ht3, ht4⟩,
      byte146_reset _ hlen0]
  case short_castling =>
    unfold Board.move
    dsimp only
    rw [if_neg hinv,
      if_neg (show MoveType.short_castling ≠ MoveType.pawn_move_and_promote by decide),
      if_neg (show MoveType.short_castling ≠ MoveType.long_castling by decide),
      if_pos (show MoveType.short_castling = MoveType.short_castling from rfl)]
    rw [byte_set_low _ _ _ _ _ (by omega) (by omega),
      byte_set_low _ _ _ _ _ (by omega) (by omega)]
    simp only [byte146_ite, byte146_set_upper_flag, byte146_set_down_flag, ite_self]
    rw [byte_setP_interior _ _ _ _ (by omega) ⟨hf1, hf2, hf3, hf4⟩,
      byte_setP_interior _ _ _ _ (by omega) ⟨ht1, ht2, ht3, ht4⟩,
      byte146_reset _ hlen0]

/-- En-passant moves only come from the pawn generator, which emits them
only under `has_chance_to_do_en_passant`. -/
theorem piece_steps_ep_has_chance {b : Board} {p : Piece} {f : Pos} {mv : Move}
    (h : mv ∈ piece_steps b p f) (hep : mv.moveType = MoveType.en_passant) :
    b.has_chance_to_do_en_passant = true := by
  have hnn : mv.moveType ≠ MoveType.normal := by rw [hep]; simp
  unfold piece_steps at h
  split at h
  · unfold pawn_steps at h
    split at h
    · rcases mem_pawn_steps_upper h with ⟨_, hc⟩ | ⟨h1, _⟩ | ⟨h1, _⟩
      · exact hc
      · rw [hep] at h1; simp at h1
      · rcases h1 with h1 | h1 <;> rw [hep] at h1 <;> simp at h1
    · rcases mem_pawn_steps_down h with ⟨_, hc⟩ | ⟨h1, _⟩ | ⟨h1, _⟩
      · exact hc
      · rw [hep] at h1; simp at h1
      · rcases h1 with h1 | h1 <;> rw [hep] at h1 <;> simp at h1
  · unfold rook_steps at h
    exact absurd (mem_gen_crossing_normal mv h) hnn
  · exact absurd (mem_knight_steps h).2.1 hnn
  · unfold bishop_steps at h
    exact absurd (mem_gen_diagonal_normal mv h) hnn
  · unfold queen_steps at h
    rw [List.mem_append] at h
    rcases h with h | h
    · exact absurd (mem_gen_crossing_normal mv h) hnn
    · exact absurd (mem_gen_diagonal_normal mv h) hnn
  · rcases mem_king_steps h with ⟨_, h1, _⟩ | ⟨_, hcase⟩ | ⟨_, hcase⟩
    · exact absurd h1 hnn
    all_goals
      rcases hcase with ⟨hty, _⟩ | ⟨hty, _⟩ <;> rw [hep] at hty <;> simp at hty
  · simp at h

end Elysia

/-- C6 (amended): (1) the initial board generates no en-passant move;
(2) an en-passant move is generated only while an en-passant target is
active; (3) every non-invalid `move()` on playable squares clears the
target unless that move is itself a pawn-double-step.  Together: an
en-passant move can appear only in the position immediately following a
qualifying double-step — but (see the counterexample) for either side,
not only the opponent of the double-stepper. -/
theorem C6_ep_only_after_double_step :
    (∀ s : Elysia.Side, ∀ mv ∈ Elysia.gen_moves_for_one_side Elysia.resetBoard s,
      mv.moveType ≠ Elysia.MoveType.en_passant) ∧
    (∀ (b : Elysia.Board) (s : Elysia.Side),
      ∀ mv ∈ Elysia.gen_moves_for_one_side b s,
        mv.moveType = Elysia.MoveType.en_passant →
          b.has_chance_to_do_en_passant = true) ∧
    (∀ (b : Elysia.Board) (m : Elysia.Move),
      m.moveType ≠ Elysia.MoveType.invalid →
      b.data.length = 148 →
      Elysia.interiorPos m.fromPos → Elysia.interiorPos m.toPos →
      (b.move m).has_chance_to_do_en_passant = true →
      m.moveType = Elysia.MoveType.pawn_2_steps) := by
  refine ⟨?_, ?_, ?_⟩
  · intro s mv hmv hep
    obtain ⟨rc, _, _, hsteps⟩ := Elysia.mem_gen_inv hmv
    have := Elysia.piece_steps_ep_has_chance hsteps hep
    rw [show Elysia.resetBoard.has_chance_to_do_en_passant = false from by decide] at this
    exact absurd this (by simp)
  · intro b s mv hmv hep
    obtain ⟨rc, _, _, hsteps⟩ := Elysia.mem_gen_inv hmv
    exact Elysia.piece_steps_ep_has_chance hsteps hep
  · intro b m hinv hlen hf ht hchance
    by_contra h2s
    rw [Elysia.move_clears_ep b m hinv h2s hlen hf ht] at hchance
    exact absurd hchance (by simp)

theorem C6_ep_only_after_double_step_witness :
    Elysia.c6Move5.moveType = Elysia.MoveType.pawn_2_steps :=
  C6_ep_only_after_double_step.2.2 Elysia.c6Board4 Elysia.c6Move5 (by decide) (by decide)
    (by decide) (by decide) (by decide)

theorem fmax_eq_max (a b : ℚ) : fmax a b = max a b := by
  unfold fmax
  rcases lt_or_ge a b with h | h
  · rw [if_pos h, max_eq_right h.le]
  · rw [if_neg (not_lt.mpr h), max_eq_left h]

theorem fmin_eq_min (a b : ℚ) : fmin a b = min a b := by
  unfold fmin
  rcases lt_or_ge b a with h | h
  · rw [if_pos h, min_eq_right h.le]
  · rw [if_neg (not_lt.mpr h), min_eq_left h]

namespace Elysia

/-- The bound-sentinel hypothesis on the external weight tables: every
static score stays inside the search sentinels (the spec: "two bound
sentinels standing in for -infinity/+infinity chosen far outside any
realistic accumulated score"). -/
abbrev evBounded (ev : Board → ℚ) : Prop :=
  ∀ b : Board, LOWER_BOUND ≤ ev b ∧ ev b ≤ UPPER_BOUND

theorem ab_max_loop_range {rec : Board → ℚ → ℚ → ℚ} {b : Board}
    (hrec : ∀ b' a' b'', LOWER_BOUND ≤ rec b' a' b'' ∧ rec b' a' b'' ≤ UPPER_BOUND) :
    ∀ (ms : List Move) (best a β : ℚ), LOWER_BOUND ≤ best → best ≤ UPPER_BOUND →
      LOWER_BOUND ≤ ab_max_loop rec b ms best a β ∧
        ab_max_loop rec b ms best a β ≤ UPPER_BOUND := by
  intro ms
  induction ms with
  | nil =>
    intro best a β h1 h2
    exact ⟨h1, h2⟩
  | cons mv rest ih =>
    intro best a β h1 h2
    rw [ab_max_loop]
    have hv := hrec (b.move mv) a β
    have hb1 : LOWER_BOUND ≤ fmax best (rec (b.move mv) a β) := by
      rw [fmax_eq_max]
      exact le_max_of_le_left h1
    have hb2 : fmax best (rec (b.move mv) a β) ≤ UPPER_BOUND := by
      rw [fmax_eq_max]
      exact max_le h2 hv.2
    split
    · exact ⟨hb1, hb2⟩
    · exact ih _ _ _ hb1 hb2

theorem ab_min_loop_range {rec : Board → ℚ → ℚ → ℚ} {b : Board}
    (hrec : ∀ b' a' b'', LOWER_BOUND ≤ rec b' a' b'' ∧ rec b' a' b'' ≤ UPPER_BOUND) :
    ∀ (ms : List Move) (best a β : ℚ), LOWER_BOUND ≤ best → best ≤ UPPER_BOUND →
      LOWER_BOUND ≤ ab_min_loop rec b ms best a β ∧
        ab_min_loop rec b ms best a β ≤ UPPER_BOUND := by
  intro ms
  induction ms with
  | nil =>
    intro best a β h1 h2
    exact ⟨h1, h2⟩
  | cons mv rest ih =>
    intro best a β h1 h2
    rw [ab_min_loop]
    have hv := hrec (b.move mv) a β
    have hb1 : LOWER_BOUND ≤ fmin best (rec (b.move mv) a β) := by
      rw [fmin_eq_min]
      exact le_min h1 hv.1
    have hb2 : fmin best (rec (b.move mv) a β) ≤ UPPER_BOUND := by
      rw [fmin_eq_min]
      exact min_le_of_left_le h2
    split
    · exact ⟨hb1, hb2⟩
    · exact ih _ _ _ hb1 hb2

/-- Under bounded evaluation, every `min_max` value stays inside the
sentinels. -/
theorem min_max_range {ev : Board → ℚ} (Hb : evBounded ev) :
    ∀ (d : Nat) (b : Board) (a β : ℚ) (fl : Bool),
      LOWER_BOUND ≤ min_max ev d b a β fl ∧ min_max ev d b a β fl ≤ UPPER_BOUND := by
  intro d
  induction d with
  | zero =>
    intro b a β fl
    exact Hb b
  | succ n ih =>
    intro b a β fl
    cases fl
    · rw [min_max]
      exact ab_min_loop_range (fun b' a' b'' => ih b' a' b'' true) _ _ _ _
        (by norm_num [LOWER_BOUND, UPPER_BOUND]) le_rfl
    · rw [min_max]
      exact ab_max_loop_range (fun b' a' b'' => ih b' a' b'' false) _ _ _ _
        le_rfl (by norm_num [LOWER_BOUND, UPPER_BOUND])

end Elysia


namespace Elysia

/-! ### The root scans as abstract folds (for the C3 equivalence)

Both root searches fold the same `val <= bestValue` (resp. `>=`) update
over candidate moves; we name that fold once (`scanMin`/`scanMax`), name
the parallel reduction (`reduceMin`/`reduceMax`), and relate the pair
folds to plain `min`/`max` folds over the per-move values. -/

/-- The root-search value of a candidate move: the `min_max` score of the
child position searched with sentinel alpha/beta, exactly as both
`gen_best_for` and the chunk workers compute it. -/
def rootVal (ev : Board → ℚ) (b : Board) (s : Side) (d : Nat) (mv : Move) : ℚ :=
  match s with
  | .upper => min_max ev d (b.move mv) LOWER_BOUND UPPER_BOUND true
  | _ => min_max ev d (b.move mv) LOWER_BOUND UPPER_BOUND false

/-- The `val <= bestValue` scan (upper side) over a candidate list. -/
def scanMin (g : Move → ℚ) (acc : Move × ℚ) (ms : List Move) : Move × ℚ :=
  ms.foldl (fun acc mv =>
    let val := g mv
    if val ≤ acc.2 then (mv, val) else acc) acc

/-- The `val >= bestValue` scan (down side) over a candidate list. -/
def scanMax (g : Move → ℚ) (acc : Move × ℚ) (ms : List Move) : Move × ℚ :=
  ms.foldl (fun acc mv =>
    let val := g mv
    if acc.2 ≤ val then (mv, val) else acc) acc

/-- The final reduction over per-chunk results (upper side). -/
def reduceMin (acc : Move × ℚ) (rs : List (Move × ℚ)) : Move × ℚ :=
  rs.foldl (fun acc r => if r.2 ≤ acc.2 then r else acc) acc

/-- The final reduction over per-chunk results (down side). -/
def reduceMax (acc : Move × ℚ) (rs : List (Move × ℚ)) : Move × ℚ :=
  rs.foldl (fun acc r => if acc.2 ≤ r.2 then r else acc) acc

theorem gen_best_for_upper_eq (ev : Board → ℚ) (b : Board) (d : Nat) :
    gen_best_for ev b Side.upper d
      = (scanMin (rootVal ev b Side.upper d) (defaultMove, UPPER_BOUND)
          (gen_moves_for_one_side b Side.upper)).1 := rfl

theorem gen_best_for_down_eq (ev : Board → ℚ) (b : Board) (d : Nat) :
    gen_best_for ev b Side.down d
      = (scanMax (rootVal ev b Side.down d) (defaultMove, LOWER_BOUND)
          (gen_moves_for_one_side b Side.down)).1 := rfl

theorem chunk_scan_upper_eq (ev : Board → ℚ) (b : Board) (d : Nat) (ch : List Move) :
    chunk_scan_upper ev b d ch
      = scanMin (rootVal ev b Side.upper d) (defaultMove, UPPER_BOUND) ch := rfl

theorem chunk_scan_down_eq (ev : Board → ℚ) (b : Board) (d : Nat) (ch : List Move) :
    chunk_scan_down ev b d ch
      = scanMax (rootVal ev b Side.down d) (defaultMove, LOWER_BOUND) ch := rfl

theorem scanMin_snd (g : Move → ℚ) :
    ∀ (ms : List Move) (acc : Move × ℚ),
      (scanMin g acc ms).2 = ms.foldl (fun v mv => min (g mv) v) acc.2 := by
  intro ms
  induction ms with
  | nil => intro acc; rfl
  | cons mv rest ih =>
    intro acc
    have hstep : scanMin g acc (mv :: rest)
        = scanMin g (if g mv ≤ acc.2 then (mv, g mv) else acc) rest := rfl
    have hfold : (mv :: rest).foldl (fun v mv => min (g mv) v) acc.2
        = rest.foldl (fun v mv => min (g mv) v) (min (g mv) acc.2) := rfl
    rw [hstep, hfold, ih]
    congr 1
    rw [apply_ite Prod.snd, min_def]

theorem scanMax_snd (g : Move → ℚ) :
    ∀ (ms : List Move) (acc : Move × ℚ),
      (scanMax g acc ms).2 = ms.foldl (fun v mv => max v (g mv)) acc.2 := by
  intro ms
  induction ms with
  | nil => intro acc; rfl
  | cons mv rest ih =>
    intro acc
    have hstep : scanMax g acc (mv :: rest)
        = scanMax g (if acc.2 ≤ g mv then (mv, g mv) else acc) rest := rfl
    have hfold : (mv :: rest).foldl (fun v mv => max v (g mv)) acc.2
        = rest.foldl (fun v mv => max v (g mv)) (max acc.2 (g mv)) := rfl
    rw [hstep, hfold, ih]
    congr 1
    rw [apply_ite Prod.snd, max_def]

theorem scanMin_inv (g : Move → ℚ) :
    ∀ (ms : List Move) (acc : Move × ℚ), g acc.1 = acc.2 →
      g (scanMin g acc ms).1 = (scanMin g acc ms).2 := by
  intro ms
  induction ms with
  | nil => intro acc h; exact h
  | cons mv rest ih =>
    intro acc h
    have hstep : scanMin g acc (mv :: rest)
        = scanMin g (if g mv ≤ acc.2 then (mv, g mv) else acc) rest := rfl
    rw [hstep]
    by_cases hc : g mv ≤ acc.2
    · rw [if_pos hc]
      exact ih (mv, g mv) rfl
    · rw [if_neg hc]
      exact ih acc h

theorem scanMax_inv (g : Move → ℚ) :
    ∀ (ms : List Move) (acc : Move × ℚ), g acc.1 = acc.2 →
      g (scanMax g acc ms).1 = (scanMax g acc ms).2 := by
  intro ms
  induction ms with
  | nil => intro acc h; exact h
  | cons mv rest ih =>
    intro acc h
    have hstep : scanMax g acc (mv :: rest)
        = scanMax g (if acc.2 ≤ g mv then (mv, g mv) else acc) rest := rfl
    rw [hstep]
    by_cases hc : acc.2 ≤ g mv
    · rw [if_pos hc]
      exact ih (mv, g mv) rfl
    · rw [if_neg hc]
      exact ih acc h

theorem scanMin_attains (g : Move → ℚ) (mv : Move) (rest : List Move) (m0 : Move) (u : ℚ)
    (h : g mv ≤ u) :
    g (scanMin g (m0, u) (mv :: rest)).1 = (scanMin g (m0, u) (mv :: rest)).2 := by
  have hstep : scanMin g (m0, u) (mv :: rest)
      = scanMin g (if g mv ≤ u then (mv, g mv) else (m0, u)) rest := rfl
  rw [hstep, if_pos h]
  exact scanMin_inv g rest (mv, g mv) rfl

theorem scanMax_attains (g : Move → ℚ) (mv : Move) (rest : List Move) (m0 : Move) (l : ℚ)
    (h : l ≤ g mv) :
    g (scanMax g (m0, l) (mv :: rest)).1 = (scanMax g (m0, l) (mv :: rest)).2 := by
  have hstep : scanMax g (m0, l) (mv :: rest)
      = scanMax g (if l ≤ g mv then (mv, g mv) else (m0, l)) rest := rfl
  rw [hstep, if_pos h]
  exact scanMax_inv g rest (mv, g mv) rfl

theorem foldl_min_le (g : Move → ℚ) :
    ∀ (ms : List Move) (a : ℚ), ms.foldl (fun v mv => min (g mv) v) a ≤ a := by
  intro ms
  induction ms with
  | nil => intro a; exact le_rfl
  | cons mv rest ih =>
    intro a
    calc (mv :: rest).foldl (fun v mv => min (g mv) v) a
        = rest.foldl (fun v mv => min (g mv) v) (min (g mv) a) := rfl
      _ ≤ min (g mv) a := ih _
      _ ≤ a := min_le_right _ _

theorem le_foldl_max (g : Move → ℚ) :
    ∀ (ms : List Move) (a : ℚ), a ≤ ms.foldl (fun v mv => max v (g mv)) a := by
  intro ms
  induction ms with
  | nil => intro a; exact le_rfl
  | cons mv rest ih =>
    intro a
    calc a ≤ max a (g mv) := le_max_left _ _
      _ ≤ rest.foldl (fun v mv => max v (g mv)) (max a (g mv)) := ih _
      _ = (mv :: rest).foldl (fun v mv => max v (g mv)) a := rfl

theorem foldl_min_init (g : Move → ℚ) :
    ∀ (ms : List Move) (a v : ℚ),
      ms.foldl (fun w mv => min (g mv) w) (min a v)
        = min a (ms.foldl (fun w mv => min (g mv) w) v) := by
  intro ms
  induction ms with
  | nil => intro a v; rfl
  | cons mv rest ih =>
    intro a v
    have h1 : (mv :: rest).foldl (fun w mv => min (g mv) w) (min a v)
        = rest.foldl (fun w mv => min (g mv) w) (min (g mv) (min a v)) := rfl
    have h2 : (mv :: rest).foldl (fun w mv => min (g mv) w) v
        = rest.foldl (fun w mv => min (g mv) w) (min (g mv) v) := rfl
    rw [h1, h2, min_left_comm (g mv) a v, ih]

theorem foldl_max_init (g : Move → ℚ) :
    ∀ (ms : List Move) (a v : ℚ),
      ms.foldl (fun w mv => max w (g mv)) (max a v)
        = max a (ms.foldl (fun w mv => max w (g mv)) v) := by
  intro ms
  induction ms with
  | nil => intro a v; rfl
  | cons mv rest ih =>
    intro a v
    have h1 : (mv :: rest).foldl (fun w mv => max w (g mv)) (max a v)
        = rest.foldl (fun w mv => max w (g mv)) (max (max a v) (g mv)) := rfl
    have h2 : (mv :: rest).foldl (fun w mv => max w (g mv)) v
        = rest.foldl (fun w mv => max w (g mv)) (max v (g mv)) := rfl
    have h3 : max (max a v) (g mv) = max a (max v (g mv)) := max_assoc a v (g mv)
    rw [h1, h2, h3, ih]

theorem foldl_min_chunks (g : Move → ℚ) (u : ℚ) :
    ∀ (chunks : List (List Move)) (a : ℚ), a ≤ u →
      chunks.foldl (fun v ch => min (ch.foldl (fun w mv => min (g mv) w) u) v) a
        = chunks.flatten.foldl (fun w mv => min (g mv) w) a := by
  intro chunks
  induction chunks with
  | nil => intro a _; rfl
  | cons ch chunks ih =>
    intro a ha
    have h1 : (ch :: chunks).foldl
          (fun v ch => min (ch.foldl (fun w mv => min (g mv) w) u) v) a
        = chunks.foldl (fun v ch => min (ch.foldl (fun w mv => min (g mv) w) u) v)
            (min (ch.foldl (fun w mv => min (g mv) w) u) a) := rfl
    have h2 : (ch :: chunks).flatten = ch ++ chunks.flatten := by simp [List.flatten]
    have h3 : ch.foldl (fun w mv => min (g mv) w) a
        = min (ch.foldl (fun w mv => min (g mv) w) u) a := by
      calc ch.foldl (fun w mv => min (g mv) w) a
          = ch.foldl (fun w mv => min (g mv) w) (min a u) := by rw [min_eq_left ha]
        _ = min a (ch.foldl (fun w mv => min (g mv) w) u) := foldl_min_init g ch a u
        _ = min (ch.foldl (fun w mv => min (g mv) w) u) a := min_comm _ _
    rw [h1, h2, List.foldl_append, ← h3,
      ih (ch.foldl (fun w mv => min (g mv) w) a) (le_trans (foldl_min_le g ch a) ha)]

theorem foldl_max_chunks (g : Move → ℚ) (l : ℚ) :
    ∀ (chunks : List (List Move)) (a : ℚ), l ≤ a →
      chunks.foldl (fun v ch => max v (ch.foldl (fun w mv => max w (g mv)) l)) a
        = chunks.flatten.foldl (fun w mv => max w (g mv)) a := by
  intro chunks
  induction chunks with
  | nil => intro a _; rfl
  | cons ch chunks ih =>
    intro a ha
    have h1 : (ch :: chunks).foldl
          (fun v ch => max v (ch.foldl (fun w mv => max w (g mv)) l)) a
        = chunks.foldl (fun v ch => max v (ch.foldl (fun w mv => max w (g mv)) l))
            (max a (ch.foldl (fun w mv => max w (g mv)) l)) := rfl
    have h2 : (ch :: chunks).flatten = ch ++ chunks.flatten := by simp [List.flatten]
    have h3 : ch.foldl (fun w mv => max w (g mv)) a
        = max a (ch.foldl (fun w mv => max w (g mv)) l) := by
      calc ch.foldl (fun w mv => max w (g mv)) a
          = ch.foldl (fun w mv => max w (g mv)) (max a l) := by rw [max_eq_left ha]
        _ = max a (ch.foldl (fun w mv => max w (g mv)) l) := foldl_max_init g ch a l
    rw [h1, h2, List.foldl_append, ← h3,
      ih (ch.foldl (fun w mv => max w (g mv)) a) (le_trans ha (le_foldl_max g ch a))]

theorem reduceMin_snd :
    ∀ (rs : List (Move × ℚ)) (acc : Move × ℚ),
      (reduceMin acc rs).2 = rs.foldl (fun v r => min r.2 v) acc.2 := by
  intro rs
  induction rs with
  | nil => intro acc; rfl
  | cons r rest ih =>
    intro acc
    have hstep : reduceMin acc (r :: rest)
        = reduceMin (if r.2 ≤ acc.2 then r else acc) rest := rfl
    have hfold : (r :: rest).foldl (fun v r => min r.2 v) acc.2
        = rest.foldl (fun v r => min r.2 v) (min r.2 acc.2) := rfl
    rw [hstep, hfold, ih]
    congr 1
    rw [apply_ite Prod.snd, min_def]

theorem reduceMax_snd :
    ∀ (rs : List (Move × ℚ)) (acc : Move × ℚ),
      (reduceMax acc rs).2 = rs.foldl (fun v r => max v r.2) acc.2 := by
  intro rs
  induction rs with
  | nil => intro acc; rfl
  | cons r rest ih =>
    intro acc
    have hstep : reduceMax acc (r :: rest)
        = reduceMax (if acc.2 ≤ r.2 then r else acc) rest := rfl
    have hfold : (r :: rest).foldl (fun v r => max v r.2) acc.2
        = rest.foldl (fun v r => max v r.2) (max acc.2 r.2) := rfl
    rw [hstep, hfold, ih]
    congr 1
    rw [apply_ite Prod.snd, max_def]

theorem reduceMin_inv (P : Move × ℚ → Prop) :
    ∀ (rs : List (Move × ℚ)) (acc : Move × ℚ), P acc → (∀ r ∈ rs, P r) →
      P (reduceMin acc rs) := by
  intro rs
  induction rs with
  | nil => intro acc h _; exact h
  | cons r rest ih =>
    intro acc h hall
    have hstep : reduceMin acc (r :: rest)
        = reduceMin (if r.2 ≤ acc.2 then r else acc) rest := rfl
    rw [hstep]
    by_cases hc : r.2 ≤ acc.2
    · rw [if_pos hc]
      exact ih r (hall r (List.mem_cons_self r rest)) fun x hx => hall x (List.mem_cons_of_mem r hx)
    · rw [if_neg hc]
      exact ih acc h fun x hx => hall x (List.mem_cons_of_mem r hx)

theorem reduceMax_inv (P : Move × ℚ → Prop) :
    ∀ (rs : List (Move × ℚ)) (acc : Move × ℚ), P acc → (∀ r ∈ rs, P r) →
      P (reduceMax acc rs) := by
  intro rs
  induction rs with
  | nil => intro acc h _; exact h
  | cons r rest ih =>
    intro acc h hall
    have hstep : reduceMax acc (r :: rest)
        = reduceMax (if acc.2 ≤ r.2 then r else acc) rest := rfl
    rw [hstep]
    by_cases hc : acc.2 ≤ r.2
    · rw [if_pos hc]
      exact ih r (hall r (List.mem_cons_self r rest)) fun x hx => hall x (List.mem_cons_of_mem r hx)
    · rw [if_neg hc]
      exact ih acc h fun x hx => hall x (List.mem_cons_of_mem r hx)

theorem reduceMin_attains (P : Move × ℚ → Prop) (r0 : Move × ℚ) (rest : List (Move × ℚ))
    (m0 : Move) (u : ℚ) (h0 : r0.2 ≤ u) (hall : ∀ r ∈ r0 :: rest, P r) :
    P (reduceMin (m0, u) (r0 :: rest)) := by
  have hstep : reduceMin (m0, u) (r0 :: rest)
      = reduceMin (if r0.2 ≤ u then r0 else (m0, u)) rest := rfl
  rw [hstep, if_pos h0]
  exact reduceMin_inv P rest r0 (hall r0 (List.mem_cons_self r0 rest))
    fun x hx => hall x (List.mem_cons_of_mem r0 hx)

theorem reduceMax_attains (P : Move × ℚ → Prop) (r0 : Move × ℚ) (rest : List (Move × ℚ))
    (m0 : Move) (l : ℚ) (h0 : l ≤ r0.2) (hall : ∀ r ∈ r0 :: rest, P r) :
    P (reduceMax (m0, l) (r0 :: rest)) := by
  have hstep : reduceMax (m0, l) (r0 :: rest)
      = reduceMax (if l ≤ r0.2 then r0 else (m0, l)) rest := rfl
  rw [hstep, if_pos h0]
  exact reduceMax_inv P rest r0 (hall r0 (List.mem_cons_self r0 rest))
    fun x hx => hall x (List.mem_cons_of_mem r0 hx)

end Elysia

namespace Elysia

/-! ### `split_vector` on a nonempty vector

For a nonempty input the `size_t` loop bound does not underflow, every
span is in range, the chunks concatenate back to the input, and no chunk
is empty. -/

theorem splitChunkParams_small (n : Nat) (h : n < 32) : splitChunkParams n = (n, 1) := by
  unfold splitChunkParams split_chunk_num
  rw [if_pos (by omega)]

theorem splitChunkParams_big (n : Nat) (h : 32 ≤ n) : splitChunkParams n = (32, n / 32) := by
  unfold splitChunkParams split_chunk_num
  rw [if_neg (by omega)]

theorem splitLoop_spec (vec : List Move) (cl : Nat) (hcl : 1 ≤ cl) :
    ∀ (fuel counter : Nat), (counter + fuel) * cl < vec.length →
      ∃ chunks, splitLoop vec cl counter fuel = some chunks ∧
        chunks.flatten = vec.drop (counter * cl) ∧ ∀ ch ∈ chunks, ch ≠ [] := by
  intro fuel
  induction fuel with
  | zero =>
    intro counter hlt
    have h0 : (counter + 0) * cl = counter * cl := by ring
    have hs : counter * cl < vec.length := by omega
    refine ⟨[vec.drop (counter * cl)], ?_, ?_, ?_⟩
    · rw [splitLoop, if_pos (le_of_lt hs)]
    · simp
    · intro ch hch
      rcases List.mem_cons.mp hch with h | h
      · subst h
        intro hnil
        have hlen := congrArg List.length hnil
        simp [List.length_drop] at hlen
        omega
      · simp at h
  | succ fuel ih =>
    intro counter hlt
    have hmono : (counter + 1) * cl ≤ (counter + fuel + 1) * cl :=
      Nat.mul_le_mul_right cl (by omega)
    have he1 : (counter + 1) * cl = counter * cl + cl := by ring
    have he2 : (counter + fuel + 1) * cl = (counter + (fuel + 1)) * cl := by ring
    have h1 : counter * cl + cl ≤ vec.length := by omega
    have hs : counter * cl < vec.length := by omega
    obtain ⟨rest, hr1, hr2, hr3⟩ := ih (counter + 1) (by
      rw [show counter + 1 + fuel = counter + (fuel + 1) from by omega]
      exact hlt)
    refine ⟨(vec.drop (counter * cl)).take cl :: rest, ?_, ?_, ?_⟩
    · rw [splitLoop]
      unfold mkSpan
      rw [if_pos h1, hr1]
    · have hj : ((vec.drop (counter * cl)).take cl :: rest).flatten
          = (vec.drop (counter * cl)).take cl ++ rest.flatten := by simp
      rw [hj, hr2, he1, ← List.drop_drop, List.take_append_drop]
    · intro ch hch
      rcases List.mem_cons.mp hch with h | h
      · subst h
        intro hnil
        have hlen := congrArg List.length hnil
        simp [List.length_take, List.length_drop] at hlen
        omega
      · exact hr3 ch h

theorem split_vector_spec (vec : List Move) (hne : vec ≠ []) :
    ∃ chunks, split_vector vec = some chunks ∧
      chunks.flatten = vec ∧ ∀ ch ∈ chunks, ch ≠ [] := by
  have hlen : 1 ≤ vec.length := List.length_pos.mpr hne
  rcases Nat.lt_or_ge vec.length 32 with hc | hc
  · have hp : splitChunkParams vec.length = (vec.length, 1) := splitChunkParams_small _ hc
    have hiter : splitIterCount vec.length = vec.length - 1 := by
      unfold splitIterCount
      omega
    obtain ⟨chunks, h1, h2, h3⟩ := splitLoop_spec vec 1 le_rfl (vec.length - 1) 0 (by omega)
    refine ⟨chunks, ?_, ?_, h3⟩
    · show splitLoop vec (splitChunkParams vec.length).2 0
        (splitIterCount (splitChunkParams vec.length).1) = some chunks
      rw [hp, show ((vec.length, 1) : Nat × Nat).2 = 1 from rfl,
        show ((vec.length, 1) : Nat × Nat).1 = vec.length from rfl, hiter]
      exact h1
    · rw [h2]
      simp
  · have hp : splitChunkParams vec.length = (32, vec.length / 32) :=
      splitChunkParams_big _ hc
    have hiter : splitIterCount 32 = 31 := by
      unfold splitIterCount
      omega
    have hcl : 1 ≤ vec.length / 32 := by omega
    obtain ⟨chunks, h1, h2, h3⟩ :=
      splitLoop_spec vec (vec.length / 32) hcl 31 0 (by omega)
    refine ⟨chunks, ?_, ?_, h3⟩
    · show splitLoop vec (splitChunkParams vec.length).2 0
        (splitIterCount (splitChunkParams vec.length).1) = some chunks
      rw [hp, show ((32, vec.length / 32) : Nat × Nat).2 = vec.length / 32 from rfl,
        show ((32, vec.length / 32) : Nat × Nat).1 = 32 from rfl, hiter]
      exact h1
    · rw [h2]
      simp

end Elysia

namespace Elysia

theorem foldl_congr_mem {α β : Type} (f g : α → β → α) :
    ∀ (l : List β) (a : α), (∀ a' x, x ∈ l → f a' x = g a' x) →
      l.foldl f a = l.foldl g a := by
  intro l
  induction l with
  | nil => intro a _; rfl
  | cons x xs ih =>
    intro a h
    have h1 : (x :: xs).foldl f a = xs.foldl f (f a x) := rfl
    have h2 : (x :: xs).foldl g a = xs.foldl g (g a x) := rfl
    rw [h1, h2, h a x (List.mem_cons_self x xs)]
    exact ih (g a x) fun a' x' hx' => h a' x' (List.mem_cons_of_mem x hx')

end Elysia

section C3Claim

open Elysia

/-- C3: amended.  Whenever the root candidate list of the chosen side is
nonempty (and the evaluation stays inside the search sentinels), the
parallel root search returns a move of exactly the same root value as the
sequential root search: chunked scanning plus the final reduction computes
the same extremum as the single scan.  (On an empty candidate list the
parallel search has no value at all — see `C8_empty_root_list` /
`C3_counterexample_empty_board`.) -/
theorem C3_parallel_value_eq_sequential (ev : Board → ℚ) (b : Board) (s : Side) (d : Nat)
    (Hb : evBounded ev) (hs : s ≠ Side.extra)
    (hne : gen_moves_for_one_side b s ≠ []) :
    ∃ m', gen_best_for_parallel ev b s d = some m' ∧
      rootVal ev b s d m' = rootVal ev b s d (gen_best_for ev b s d) := by
  cases s with
  | extra => exact absurd rfl hs
  | upper =>
    have hgU : ∀ mv, rootVal ev b Side.upper d mv ≤ UPPER_BOUND := fun mv =>
      (min_max_range Hb d (b.move mv) LOWER_BOUND UPPER_BOUND true).2
    obtain ⟨chunks, hs1, hs2, hs3⟩ :=
      split_vector_spec (gen_moves_for_one_side b Side.upper) hne
    have hpar : gen_best_for_parallel ev b Side.upper d
        = some (reduceMin (defaultMove, UPPER_BOUND)
            (chunks.map (chunk_scan_upper ev b d))).1 := by
      have hm : gen_best_for_parallel ev b Side.upper d
          = parReduceUpper ev b d
              (split_vector (gen_moves_for_one_side b Side.upper)) := rfl
      rw [hm, hs1]
      rfl
    obtain ⟨mv0, rest0, hm0⟩ := List.exists_cons_of_ne_nil hne
    have hchne : chunks ≠ [] := by
      intro h
      rw [h] at hs2
      exact hne hs2.symm
    obtain ⟨ch0, chs, hch⟩ := List.exists_cons_of_ne_nil hchne
    refine ⟨_, hpar, ?_⟩
    rw [gen_best_for_upper_eq]
    have hseq : rootVal ev b Side.upper d
        ((scanMin (rootVal ev b Side.upper d) (defaultMove, UPPER_BOUND)
          (gen_moves_for_one_side b Side.upper)).1)
        = (scanMin (rootVal ev b Side.upper d) (defaultMove, UPPER_BOUND)
          (gen_moves_for_one_side b Side.upper)).2 := by
      rw [hm0]
      exact scanMin_attains _ mv0 rest0 defaultMove UPPER_BOUND (hgU mv0)
    have hP : ∀ r ∈ chunks.map (chunk_scan_upper ev b d),
        rootVal ev b Side.upper d r.1 = r.2 := by
      intro r hr
      obtain ⟨ch, hchmem, hrfl⟩ := List.mem_map.mp hr
      obtain ⟨m1, t1, hm1⟩ := List.exists_cons_of_ne_nil (hs3 ch hchmem)
      rw [← hrfl, chunk_scan_upper_eq, hm1]
      exact scanMin_attains _ m1 t1 defaultMove UPPER_BOUND (hgU m1)
    have hr0le : (chunk_scan_upper ev b d ch0).2 ≤ UPPER_BOUND := by
      rw [chunk_scan_upper_eq, scanMin_snd]
      exact foldl_min_le _ ch0 UPPER_BOUND
    have hattain : rootVal ev b Side.upper d
        ((reduceMin (defaultMove, UPPER_BOUND) (chunks.map (chunk_scan_upper ev b d))).1)
        = (reduceMin (defaultMove, UPPER_BOUND) (chunks.map (chunk_scan_upper ev b d))).2 := by
      rw [hch, List.map_cons]
      rw [hch, List.map_cons] at hP
      exact reduceMin_attains (fun r => rootVal ev b Side.upper d r.1 = r.2)
        (chunk_scan_upper ev b d ch0) (chs.map (chunk_scan_upper ev b d))
        defaultMove UPPER_BOUND hr0le hP
    have hval : (reduceMin (defaultMove, UPPER_BOUND) (chunks.map (chunk_scan_upper ev b d))).2
        = (scanMin (rootVal ev b Side.upper d) (defaultMove, UPPER_BOUND)
            (gen_moves_for_one_side b Side.upper)).2 := by
      rw [reduceMin_snd, scanMin_snd, List.foldl_map]
      have hcongr := foldl_congr_mem
        (fun v ch => min (chunk_scan_upper ev b d ch).2 v)
        (fun v ch => min (ch.foldl
          (fun w mv => min (rootVal ev b Side.upper d mv) w) UPPER_BOUND) v)
        chunks UPPER_BOUND
        (fun a ch _ => by
          dsimp only
          rw [chunk_scan_upper_eq, scanMin_snd])
      rw [hcongr, foldl_min_chunks (rootVal ev b Side.upper d) UPPER_BOUND chunks
        UPPER_BOUND le_rfl, hs2]
    rw [hattain, hseq]
    exact hval
  | down =>
    have hgL : ∀ mv, LOWER_BOUND ≤ rootVal ev b Side.down d mv := fun mv =>
      (min_max_range Hb d (b.move mv) LOWER_BOUND UPPER_BOUND false).1
    obtain ⟨chunks, hs1, hs2, hs3⟩ :=
      split_vector_spec (gen_moves_for_one_side b Side.down) hne
    have hpar : gen_best_for_parallel ev b Side.down d
        = some (reduceMax (defaultMove, LOWER_BOUND)
            (chunks.map (chunk_scan_down ev b d))).1 := by
      have hm : gen_best_for_parallel ev b Side.down d
          = parReduceDown ev b d
              (split_vector (gen_moves_for_one_side b Side.down)) := rfl
      rw [hm, hs1]
      rfl
    obtain ⟨mv0, rest0, hm0⟩ := List.exists_cons_of_ne_nil hne
    have hchne : chunks ≠ [] := by
      intro h
      rw [h] at hs2
      exact hne hs2.symm
    obtain ⟨ch0, chs, hch⟩ := List.exists_cons_of_ne_nil hchne
    refine ⟨_, hpar, ?_⟩
    rw [gen_best_for_down_eq]
    have hseq : rootVal ev b Side.down d
        ((scanMax (rootVal ev b Side.down d) (defaultMove, LOWER_BOUND)
          (gen_moves_for_one_side b Side.down)).1)
        = (scanMax (rootVal ev b Side.down d) (defaultMove, LOWER_BOUND)
          (gen_moves_for_one_side b Side.down)).2 := by
      rw [hm0]
      exact scanMax_attains _ mv0 rest0 defaultMove LOWER_BOUND (hgL mv0)
    have hP : ∀ r ∈ chunks.map (chunk_scan_down ev b d),
        rootVal ev b Side.down d r.1 = r.2 := by
      intro r hr
      obtain ⟨ch, hchmem, hrfl⟩ := List.mem_map.mp hr
      obtain ⟨m1, t1, hm1⟩ := List.exists_cons_of_ne_nil (hs3 ch hchmem)
      rw [← hrfl, chunk_scan_down_eq, hm1]
      exact scanMax_attains _ m1 t1 defaultMove LOWER_BOUND (hgL m1)
    have hr0le : LOWER_BOUND ≤ (chunk_scan_down ev b d ch0).2 := by
      rw [chunk_scan_down_eq, scanMax_snd]
      exact le_foldl_max _ ch0 LOWER_BOUND
    have hattain : rootVal ev b Side.down d
        ((reduceMax (defaultMove, LOWER_BOUND) (chunks.map (chunk_scan_down ev b d))).1)
        = (reduceMax (defaultMove, LOWER_BOUND) (chunks.map (chunk_scan_down ev b d))).2 := by
      rw [hch, List.map_cons]
      rw [hch, List.map_cons] at hP
      exact reduceMax_attains (fun r => rootVal ev b Side.down d r.1 = r.2)
        (chunk_scan_down ev b d ch0) (chs.map (chunk_scan_down ev b d))
        defaultMove LOWER_BOUND hr0le hP
    have hval : (reduceMax (defaultMove, LOWER_BOUND) (chunks.map (chunk_scan_down ev b d))).2
        = (scanMax (rootVal ev b Side.down d) (defaultMove, LOWER_BOUND)
            (gen_moves_for_one_side b Side.down)).2 := by
      rw [reduceMax_snd, scanMax_snd, List.foldl_map]
      have hcongr := foldl_congr_mem
        (fun v ch => max v (chunk_scan_down ev b d ch).2)
        (fun v ch => max v (ch.foldl
          (fun w mv => max w (rootVal ev b Side.down d mv)) LOWER_BOUND))
        chunks LOWER_BOUND
        (fun a ch _ => by
          dsimp only
          rw [chunk_scan_down_eq, scanMax_snd])
      rw [hcongr, foldl_max_chunks (rootVal ev b Side.down d) LOWER_BOUND chunks
        LOWER_BOUND le_rfl, hs2]
    rw [hattain, hseq]
    exact hval

theorem C3_parallel_value_eq_sequential_witness :
    ∃ m', gen_best_for_parallel evZero resetBoard Side.down 0 = some m' ∧
      rootVal evZero resetBoard Side.down 0 m'
        = rootVal evZero resetBoard Side.down 0
            (gen_best_for evZero resetBoard Side.down 0) :=
  C3_parallel_value_eq_sequential evZero resetBoard Side.down 0
    (fun _ => ⟨by norm_num [evZero, LOWER_BOUND], by norm_num [evZero, UPPER_BOUND]⟩)
    (by decide) (by decide)

end C3Claim
